import Mathlib

/-!
Verification of the mesh-viewer core pipeline (`src/main.rs`, `src/net.rs`).

Modelling conventions:
* `f32` arithmetic is idealized as exact arithmetic over a `LinearOrderedField`;
  witnesses and counterexamples instantiate it at `ℚ`, and the slope threshold
  (which uses `cos`) is treated over `ℝ`.
* Rust `Vec` becomes `List`; `u32`/`usize` become `Nat`; `i32` becomes `Int`.
* The `HashMap<(i32,i32), _>` of `split_mesh_into_tiles` is modelled as an
  insertion-ordered association list.  Its Rust iteration order is unspecified,
  and every property proved below is insensitive to the order of tiles.
* Rust indexing `v[i]` is modelled as `List.getD` with a zero default; theorems
  that need the Rust in-bounds semantics carry explicit validity hypotheses.
-/

/-- Three-component vector, modelling `glam::Vec3` with exact scalars. -/
structure Vec3 (α : Type) where
  x : α
  y : α
  z : α
deriving DecidableEq

/-- The zero vector `Vec3::ZERO`. -/
def Vec3.zero {α : Type} [LinearOrderedField α] : Vec3 α := ⟨0, 0, 0⟩

/-- Componentwise addition of vectors. -/
def Vec3.add {α : Type} [LinearOrderedField α] (a b : Vec3 α) : Vec3 α :=
  ⟨a.x + b.x, a.y + b.y, a.z + b.z⟩

/-- Componentwise subtraction of vectors. -/
def Vec3.sub {α : Type} [LinearOrderedField α] (a b : Vec3 α) : Vec3 α :=
  ⟨a.x - b.x, a.y - b.y, a.z - b.z⟩

/-- The cross product of two vectors, as computed by `glam`. -/
def Vec3.cross {α : Type} [LinearOrderedField α] (a b : Vec3 α) : Vec3 α :=
  ⟨a.y * b.z - a.z * b.y, a.z * b.x - a.x * b.z, a.x * b.y - a.y * b.x⟩

/-- Division of a vector by a scalar. -/
def Vec3.sdiv {α : Type} [LinearOrderedField α] (a : Vec3 α) (c : α) : Vec3 α :=
  ⟨a.x / c, a.y / c, a.z / c⟩

/-- Repeated addition of the same vector (`n` copies), used to state the
accumulated normal sums. -/
def Vec3.nsmul {α : Type} [LinearOrderedField α] : Nat → Vec3 α → Vec3 α
  | 0, _ => Vec3.zero
  | n + 1, a => (Vec3.nsmul n a).add a

/-- Rust slice `chunks(3)`: splits a list into consecutive chunks of size 3,
with a shorter trailing chunk when the length is not a multiple of 3. -/
def chunks3 {β : Type} : List β → List (List β)
  | [] => []
  | a :: b :: c :: rest => [a, b, c] :: chunks3 rest
  | rest => [rest]

/-- An RGBA color, modelling `[f32; 4]`. -/
abbrev Col (α : Type) := α × α × α × α

/-- The grid coordinate of a vertex: `((v.x / tile_size).floor(), (v.z / tile_size).floor())`
from `split_mesh_into_tiles` in `src/main.rs`. -/
def tileCoord {α : Type} [LinearOrderedField α] [FloorRing α] (tile_size : α)
    (v : Vec3 α) : Int × Int :=
  (⌊v.x / tile_size⌋, ⌊v.z / tile_size⌋)

/-- The vertex/index/normal triple owned by one tile. -/
structure TileData (α : Type) where
  verts : List (Vec3 α)
  inds : List Nat
  norms : List (Vec3 α)
deriving DecidableEq

/-- The tile map of `split_mesh_into_tiles`, as an insertion-ordered
association list keyed by the grid coordinate. -/
abbrev TileMap (α : Type) := List ((Int × Int) × TileData α)

/-- Association-list lookup on a `TileMap`. -/
def lookupTile {α : Type} (k : Int × Int) : TileMap α → Option (TileData α)
  | [] => none
  | (k2, td) :: rest => if k2 = k then some td else lookupTile k rest

/-- Models `tile_map.entry(k).or_insert_with(empty)` followed by a mutation `f`
of the entry: update in place when the key is present, append a freshly
initialized entry otherwise. -/
def updateTile {α : Type} (k : Int × Int) (f : TileData α → TileData α) :
    TileMap α → TileMap α
  | [] => [(k, f ⟨[], [], []⟩)]
  | (k2, td) :: rest =>
    if k2 = k then (k2, f td) :: rest else (k2, td) :: updateTile k f rest

/-- The inclusive integer range `lo..=hi` as a list. -/
def intRange (lo hi : Int) : List Int :=
  (List.range (hi + 1 - lo).toNat).map (fun (j : Nat) => lo + (j : Int))

/-- The nested loop `for tile_x in min..=max { for tile_z in min..=max }` as the
list of visited coordinates. -/
def rectCoords (x0 x1 z0 z1 : Int) : List (Int × Int) :=
  (intRange x0 x1).flatMap (fun tx => (intRange z0 z1).map (fun tz => (tx, tz)))

/-- The body of the per-tile loop of `split_mesh_into_tiles`: append a fresh
copy of the triangle (3 vertices, 3 locally based indices, 3 normals) to a
tile. -/
def pushTri {α : Type} (v0 v1 v2 n0 n1 n2 : Vec3 α) (td : TileData α) : TileData α :=
  ⟨td.verts ++ [v0, v1, v2],
   td.inds ++ [td.verts.length, td.verts.length + 1, td.verts.length + 2],
   td.norms ++ [n0, n1, n2]⟩

/-- The corner entry of a chunk at position `i` (0, 1 or 2), read from a data
list (used both for vertex positions and for normals); out-of-range reads
default to zero (the Rust source would panic there). -/
def cornerOf {α : Type} [LinearOrderedField α] (data : List (Vec3 α))
    (triangle : List Nat) (i : Nat) : Vec3 α :=
  data.getD (triangle.getD i 0) Vec3.zero

/-- The bounding rectangle `(min_tile_x, max_tile_x, min_tile_z, max_tile_z)`
of the three corner tile coordinates of a triangle chunk (`src/main.rs` lines
206–217). -/
def triRect {α : Type} [LinearOrderedField α] [FloorRing α]
    (vertices : List (Vec3 α)) (tile_size : α) (triangle : List Nat) :
    Int × Int × Int × Int :=
  let t0 := tileCoord tile_size (cornerOf vertices triangle 0)
  let t1 := tileCoord tile_size (cornerOf vertices triangle 1)
  let t2 := tileCoord tile_size (cornerOf vertices triangle 2)
  (min (min t0.1 t1.1) t2.1, max (max t0.1 t1.1) t2.1,
   min (min t0.2 t1.2) t2.2, max (max t0.2 t1.2) t2.2)

/-- One iteration of the triangle loop of `split_mesh_into_tiles`
(`src/main.rs` lines 196–241): skip incomplete chunks, compute the bounding
rectangle of the three corner tile coordinates, and push the triangle into
every tile of that rectangle. -/
def addTriangle {α : Type} [LinearOrderedField α] [FloorRing α]
    (vertices normals : List (Vec3 α)) (tile_size : α)
    (m : TileMap α) (triangle : List Nat) : TileMap α :=
  if triangle.length = 3 then
    (rectCoords (triRect vertices tile_size triangle).1
        (triRect vertices tile_size triangle).2.1
        (triRect vertices tile_size triangle).2.2.1
        (triRect vertices tile_size triangle).2.2.2).foldl
      (fun m2 c => updateTile c
        (pushTri (cornerOf vertices triangle 0) (cornerOf vertices triangle 1)
          (cornerOf vertices triangle 2) (cornerOf normals triangle 0)
          (cornerOf normals triangle 1) (cornerOf normals triangle 2)) m2) m
  else m

/-- `split_mesh_into_tiles` from `src/main.rs` (lines 185–249): distribute
every complete triangle into all tiles of the bounding rectangle of its corner
tile coordinates.  The resulting map is returned directly (the source converts
it to a `Vec` of quintuples in unspecified `HashMap` order). -/
def split_mesh_into_tiles {α : Type} [LinearOrderedField α] [FloorRing α]
    (vertices : List (Vec3 α)) (indices : List Nat) (normals : List (Vec3 α))
    (tile_size : α) : TileMap α :=
  (chunks3 indices).foldl (addTriangle vertices normals tile_size) []

/-- The loop body of `calculate_colors` writing one chunk: all indices of the
chunk are set to the same color. -/
def writeAll {α : Type} (color : Col α) (chunk : List Nat)
    (colors : List (Col α)) : List (Col α) :=
  chunk.foldl (fun cs idx => cs.set idx color) colors

/-- The per-chunk step of `calculate_colors` (`src/main.rs` lines 264–289):
for a complete chunk, compute the color from the normal stored at the chunk's
first index and write it to all three indices. -/
def colorStep {α : Type} [LinearOrderedField α] (normals : List (Vec3 α))
    (walkable_thr : α) (colors : List (Col α)) (chunk : List Nat) : List (Col α) :=
  if chunk.length = 3 then
    let normal := normals.getD (chunk.getD 0 0) Vec3.zero
    let brightness := 220 * (2 + normal.x + normal.y) / 4 / 255
    let grey : Col α := (brightness, brightness, brightness, 1)
    let unwalkable : Col α := (192 / 255, 128 / 255, 0, 1)
    let color :=
      if normal.y < walkable_thr then
        let t : α := 64 / 255
        (grey.1 * (1 - t) + unwalkable.1 * t,
         grey.2.1 * (1 - t) + unwalkable.2.1 * t,
         grey.2.2.1 * (1 - t) + unwalkable.2.2.1 * t,
         1)
      else grey
    writeAll color chunk colors
  else colors

/-- The body of `calculate_colors` from `src/main.rs` (lines 252–292), with the
already-computed threshold `walkable_thr` as a parameter: start from all-white
colors, then process the index list in chunks of three. -/
def calculate_colorsCore {α : Type} [LinearOrderedField α]
    (vertices : List (Vec3 α)) (indices : List Nat) (normals : List (Vec3 α))
    (walkable_thr : α) : List (Col α) :=
  (chunks3 indices).foldl (colorStep normals walkable_thr)
    (List.replicate vertices.length (1, 1, 1, 1))

/-- `calculate_colors` from `src/main.rs`: the threshold is
`walkable_slope_angle.to_radians().cos()`, idealized over `ℝ`. -/
noncomputable def calculate_colors (vertices : List (Vec3 ℝ)) (indices : List Nat)
    (normals : List (Vec3 ℝ)) (walkable_slope_angle : ℝ) : List (Col ℝ) :=
  calculate_colorsCore vertices indices normals
    (Real.cos (walkable_slope_angle * (Real.pi / 180)))

/-- Vertex-data container parsed from an OBJ file.  Its loader
(`obj_loader.rs`) is not under `src/`; only the fields used by
`convert_obj_to_mesh_data` are modelled: a 1-indexed vertex list (slot 0
reserved) and faces as lists of 1-based vertex indices. -/
structure ObjData (α : Type) where
  vertices : List (Vec3 α)
  faces : List (List Nat)
deriving DecidableEq

/-- Modelled from the spec: `obj_loader.rs` is absent from `src/`, so fan
triangulation is taken from the specification — a face of `N ≥ 3` vertices
yields the `N - 2` triangles `(face[0], face[i-1], face[i])` for `i = 2..N`,
and a face with fewer than 3 vertices yields no triangles and no error. -/
def trifan (face : List Nat) : List (List Nat) :=
  if face.length < 3 then []
  else (List.range (face.length - 2)).map
    (fun k => [face.getD 0 0, face.getD (k + 1) 0, face.getD (k + 2) 0])

/-- Modelled from the spec: `ObjData::triangulate` triangulates every face by
fan expansion and concatenates the results. -/
def ObjData.triangulate {α : Type} (o : ObjData α) : List (List Nat) :=
  o.faces.flatMap trifan

/-- One accumulation step of the normal-averaging loop: add the face normal to
the vertex's accumulated normal and bump its contribution counter
(`normals[index] += normal; normal_counts[index] += 1`). -/
def bumpNormal {α : Type} [LinearOrderedField α] (normal : Vec3 α)
    (st : List (Vec3 α) × List Nat) (idx : Nat) : List (Vec3 α) × List Nat :=
  (st.1.set idx ((st.1.getD idx Vec3.zero).add normal),
   st.2.set idx (st.2.getD idx 0 + 1))

/-- The per-chunk step of the normal-averaging loop of
`convert_obj_to_mesh_data` (`src/main.rs` lines 629–642): for a complete
chunk, compute the normalized face normal from the first corner's two edge
vectors and accumulate it into all three corner vertices. -/
def accumStep {α : Type} [LinearOrderedField α] (nrm : Vec3 α → Vec3 α)
    (vertices : List (Vec3 α)) (st : List (Vec3 α) × List Nat)
    (chunk : List Nat) : List (Vec3 α) × List Nat :=
  if chunk.length = 3 then
    let v0 := vertices.getD (chunk.getD 0 0) Vec3.zero
    let v1 := vertices.getD (chunk.getD 1 0) Vec3.zero
    let v2 := vertices.getD (chunk.getD 2 0) Vec3.zero
    let normal := nrm ((v1.sub v0).cross (v2.sub v0))
    chunk.foldl (bumpNormal normal) st
  else st

/-- The final averaging pass of `convert_obj_to_mesh_data` (`src/main.rs`
lines 645–649): each vertex with a positive contribution count becomes the
normalized average; others are left as accumulated (the zero vector). -/
def finalizeNormals {α : Type} [LinearOrderedField α] (nrm : Vec3 α → Vec3 α) :
    List (Vec3 α) → List Nat → List (Vec3 α)
  | [], _ => []
  | ns, [] => ns
  | n :: ns, c :: cs =>
    (if 0 < c then nrm (n.sdiv (c : α)) else n) :: finalizeNormals nrm ns cs

/-- The normal-averaging computation of `convert_obj_to_mesh_data`
(`src/main.rs` lines 624–649), factored over its inputs.  `nrm` abstracts
`glam::Vec3::normalize` (an external floating-point library function). -/
def average_normals {α : Type} [LinearOrderedField α] (nrm : Vec3 α → Vec3 α)
    (vertices : List (Vec3 α)) (indices : List Nat) : List (Vec3 α) :=
  let st := (chunks3 indices).foldl (accumStep nrm vertices)
    (List.replicate vertices.length Vec3.zero, List.replicate vertices.length 0)
  finalizeNormals nrm st.1 st.2

/-- `convert_obj_to_mesh_data` from `src/main.rs` (lines 604–652): drop the
reserved vertex slot, fan-triangulate, shift indices to 0-based, and average
the normals. -/
def convert_obj_to_mesh_data {α : Type} [LinearOrderedField α]
    (nrm : Vec3 α → Vec3 α) (obj : ObjData α) :
    List (Vec3 α) × List Nat × List (Vec3 α) :=
  let vertices := obj.vertices.drop 1
  let indices := obj.triangulate.flatMap
    (fun tri => [tri.getD 0 0 - 1, tri.getD 1 0 - 1, tri.getD 2 0 - 1])
  (vertices, indices, average_normals nrm vertices indices)

/-- The `MeshData` resource of `src/main.rs` (lines 167–173). -/
structure MeshData (α : Type) where
  vertices : List (Vec3 α)
  indices : List Nat
  normals : List (Vec3 α)
  tile_size : α
deriving DecidableEq

/-- One spawned tile entity: its `TileMesh` coordinate component together with
the mesh attributes inserted for it by `update_mesh`. -/
structure TileMeshEnt (α : Type) where
  tile_x : Int
  tile_y : Int
  verts : List (Vec3 α)
  inds : List Nat
  norms : List (Vec3 α)
  colors : List (Col α)
deriving DecidableEq

/-- The application state acted on by `update_mesh`: the spawned tile
entities, the installed `MeshData` resource, and the `MeshViewer` fields it
reads and writes. -/
structure AppState (α : Type) where
  tiles : List (TileMeshEnt α)
  meshData : MeshData α
  walkable_slope_angle : α
  obj_path : Option String
  needs_update : Bool
deriving DecidableEq

/-- `update_mesh` from `src/main.rs` (lines 530–603).  `load_obj` abstracts
`obj_loader::load_obj` (its source is not under `src/`; only its `Result`
shape is needed), `nrm` abstracts `glam::Vec3::normalize`, and `cosr`
abstracts `f32::to_radians` composed with `f32::cos`.  When no update is
needed the state is returned unchanged; otherwise all existing tile entities
are despawned first, and only a successful load installs new tiles and a new
`MeshData` resource. -/
def update_mesh {α : Type} [LinearOrderedField α] [FloorRing α]
    (load_obj : String → Except Unit (ObjData α)) (nrm : Vec3 α → Vec3 α)
    (cosr : α → α) (st : AppState α) : AppState α :=
  if st.needs_update = false then st
  else
    match st.obj_path with
    | some path =>
      match load_obj path with
      | Except.ok obj =>
        let md := convert_obj_to_mesh_data nrm obj
        let tile_size : α := 988
        let tiles := split_mesh_into_tiles md.1 md.2.1 md.2.2 tile_size
        { st with
          tiles := tiles.map (fun p =>
            ⟨p.1.1, p.1.2, p.2.verts, p.2.inds, p.2.norms,
             calculate_colorsCore p.2.verts p.2.inds p.2.norms
               (cosr st.walkable_slope_angle)⟩),
          meshData := ⟨md.1, md.2.1, md.2.2, tile_size⟩,
          needs_update := false }
      | Except.error _ => { st with tiles := [], needs_update := false }
    | none => { st with tiles := [], needs_update := false }

namespace Net

/-- The `Vector3` message payload of `src/net.rs` (`f32` idealized as `ℚ`). -/
structure Vector3 where
  x : ℚ
  y : ℚ
  z : ℚ
deriving DecidableEq

/-- The `Move` message payload of `src/net.rs`. -/
structure ActorMove where
  id : String
  orig : Vector3
  dest : Vector3
deriving DecidableEq

/-- The `Spawn` message payload of `src/net.rs`; its `actor_type` field is
serialized under the key `type`. -/
structure ActorSpawn where
  id : String
  actor_type : String
  position : Vector3
deriving DecidableEq

/-- The `Despawn` message payload of `src/net.rs`. -/
structure ActorDespawn where
  id : String
deriving DecidableEq

/-- The `ActorMessage` enum of `src/net.rs`, internally tagged by
`message_type`. -/
inductive ActorMessage where
  | Move : ActorMove → ActorMessage
  | Spawn : ActorSpawn → ActorMessage
  | Despawn : ActorDespawn → ActorMessage
deriving DecidableEq

/-- A JSON value, used to model the serde wire format of `ActorMessage`. -/
inductive Json where
  | str : String → Json
  | num : ℚ → Json
  | obj : List (String × Json) → Json
  | arr : List Json → Json
  | bool : Bool → Json
  | null : Json

/-- First field of a JSON object with the given key, if any. -/
def getField (j : Json) (key : String) : Option Json :=
  match j with
  | Json.obj fields => lookupField key fields
  | _ => none
where
  lookupField (key : String) : List (String × Json) → Option Json
    | [] => none
    | (k, v) :: rest => if k = key then some v else lookupField key rest

/-- Modelled from the spec: the serde-derived serializer for `Vector3`
(`{x, y, z}` objects). -/
def encodeVector3 (v : Vector3) : Json :=
  Json.obj [("x", Json.num v.x), ("y", Json.num v.y), ("z", Json.num v.z)]

/-- Modelled from the spec: the serde-derived, internally-tagged serializer
for `ActorMessage` — each variant is flattened into one object carrying its
variant name under the `message_type` key, with `ActorSpawn.actor_type`
renamed to `type`. -/
def encodeActorMessage : ActorMessage → Json
  | ActorMessage.Move m => Json.obj
      [("message_type", Json.str "Move"), ("id", Json.str m.id),
       ("orig", encodeVector3 m.orig), ("dest", encodeVector3 m.dest)]
  | ActorMessage.Spawn s => Json.obj
      [("message_type", Json.str "Spawn"), ("id", Json.str s.id),
       ("type", Json.str s.actor_type), ("position", encodeVector3 s.position)]
  | ActorMessage.Despawn d => Json.obj
      [("message_type", Json.str "Despawn"), ("id", Json.str d.id)]

/-- Modelled from the spec: the serde-derived deserializer for `Vector3`. -/
def decodeVector3 (j : Json) : Option Vector3 :=
  match getField j "x", getField j "y", getField j "z" with
  | some (Json.num x), some (Json.num y), some (Json.num z) => some ⟨x, y, z⟩
  | _, _, _ => none

/-- Modelled from the spec: the serde-derived, internally-tagged deserializer
for `ActorMessage` (`src/net.rs` declares the derive and the
`serde(tag = "message_type")` attribute; the generated decoder itself is not
under `src/`): dispatch on the string under `message_type`, then read the
variant fields from the same object; any other tag fails. -/
def decodeActorMessage (j : Json) : Option ActorMessage :=
  match getField j "message_type" with
  | some (Json.str tag) =>
    if tag = "Move" then
      match getField j "id", getField j "orig", getField j "dest" with
      | some (Json.str id), some orig, some dest =>
        match decodeVector3 orig, decodeVector3 dest with
        | some o, some d => some (ActorMessage.Move ⟨id, o, d⟩)
        | _, _ => none
      | _, _, _ => none
    else if tag = "Spawn" then
      match getField j "id", getField j "type", getField j "position" with
      | some (Json.str id), some (Json.str ty), some pos =>
        match decodeVector3 pos with
        | some p => some (ActorMessage.Spawn ⟨id, ty, p⟩)
        | _ => none
      | _, _, _ => none
    else if tag = "Despawn" then
      match getField j "id" with
      | some (Json.str id) => some (ActorMessage.Despawn ⟨id⟩)
      | _ => none
    else none
  | _ => none

/-- `u32::from_be_bytes` on four byte values. -/
def u32_from_be_bytes (b0 b1 b2 b3 : Nat) : Nat :=
  ((b0 * 256 + b1) * 256 + b2) * 256 + b3

/-- Modelled from the spec: the 4-byte big-endian encoding of a `u32` length
header (the writer side of the protocol is external to `try_read`). -/
def u32_to_be_bytes (n : Nat) : List Nat :=
  [n / 16777216 % 256, n / 65536 % 256, n / 256 % 256, n % 256]

/-- The framing logic of `try_read` from `src/net.rs` (lines 129–161) on a
byte stream: if fewer than 4 bytes are buffered, return without consuming
anything (`peek` saw less than 4); otherwise consume the 4-byte big-endian
length header and exactly that many payload bytes, returning the payload and
the remaining stream. -/
def try_read (stream : List Nat) : Option (List Nat × List Nat) :=
  match stream with
  | b0 :: b1 :: b2 :: b3 :: rest =>
    let count := u32_from_be_bytes b0 b1 b2 b3
    if count ≤ rest.length then some (rest.take count, rest.drop count) else none
  | _ => none

end Net

/-- Spec-side: does the bounding rectangle of the tile coordinates of the
three corners of a complete triangle chunk contain the coordinate `k`?
Incomplete chunks cover nothing. -/
def coversB {α : Type} [LinearOrderedField α] [FloorRing α]
    (vertices : List (Vec3 α)) (tile_size : α) (k : Int × Int)
    (ch : List Nat) : Bool :=
  ch.length == 3 &&
    (decide ((triRect vertices tile_size ch).1 ≤ k.1) &&
     decide (k.1 ≤ (triRect vertices tile_size ch).2.1) &&
     decide ((triRect vertices tile_size ch).2.2.1 ≤ k.2) &&
     decide (k.2 ≤ (triRect vertices tile_size ch).2.2.2))

/-- The three corner entries of a chunk, read from a data list (used both for
vertex positions and for normals). -/
def triVerts {α : Type} [LinearOrderedField α] (data : List (Vec3 α))
    (ch : List Nat) : List (Vec3 α) :=
  [cornerOf data ch 0, cornerOf data ch 1, cornerOf data ch 2]

/-- Spec-side: the vertex sequence of the tile at `k` — a fresh copy of the
three corners of every complete triangle whose coordinate rectangle contains
`k`, in triangle order. -/
def specTileVerts {α : Type} [LinearOrderedField α] [FloorRing α]
    (vertices : List (Vec3 α)) (tile_size : α) (k : Int × Int)
    (tris : List (List Nat)) : List (Vec3 α) :=
  (tris.filter (coversB vertices tile_size k)).flatMap (triVerts vertices)

/-- Spec-side: the normal sequence of the tile at `k`, parallel to
`specTileVerts`. -/
def specTileNorms {α : Type} [LinearOrderedField α] [FloorRing α]
    (vertices normals : List (Vec3 α)) (tile_size : α) (k : Int × Int)
    (tris : List (List Nat)) : List (Vec3 α) :=
  (tris.filter (coversB vertices tile_size k)).flatMap (triVerts normals)

/-- Extension of a tile by a batch of vertices and normals, with the index
sequence recomputed as the local re-indexing from zero. -/
def extendTD {α : Type} (td : TileData α) (v n : List (Vec3 α)) : TileData α :=
  ⟨td.verts ++ v, List.range (td.verts.length + v.length), td.norms ++ n⟩

/-- Wellformedness of one tile: locally re-indexed from zero with parallel
normals. -/
def wfTD {α : Type} (td : TileData α) : Prop :=
  td.inds = List.range td.verts.length ∧ td.norms.length = td.verts.length

/-- Spec-side: the grey color derived from a representative normal,
`brightness = (220 * (2 + x + y) / 4) / 255` in every RGB channel, unclamped. -/
def greyOf {α : Type} [LinearOrderedField α] (n : Vec3 α) : Col α :=
  (220 * (2 + n.x + n.y) / 4 / 255, 220 * (2 + n.x + n.y) / 4 / 255,
   220 * (2 + n.x + n.y) / 4 / 255, 1)

/-- Spec-side: the unwalkable color — grey blended toward the tint
`(192/255, 128/255, 0, 1)` with weight `t = 64/255` per channel,
`result = grey * (1 - t) + tint * t`. -/
def tintedOf {α : Type} [LinearOrderedField α] (n : Vec3 α) : Col α :=
  ((greyOf n).1 * (1 - 64 / 255) + 192 / 255 * (64 / 255),
   (greyOf n).2.1 * (1 - 64 / 255) + 128 / 255 * (64 / 255),
   (greyOf n).2.2.1 * (1 - 64 / 255) + 0 * (64 / 255),
   1)

/-- Spec-side: the color of one complete triangle chunk — the representative
normal is the one stored at the chunk's first index; tinted when its
y-component is below the threshold, grey otherwise. -/
def triangleColor {α : Type} [LinearOrderedField α] (normals : List (Vec3 α))
    (walkable_thr : α) (ch : List Nat) : Col α :=
  let n := normals.getD (ch.getD 0 0) Vec3.zero
  if n.y < walkable_thr then tintedOf n else greyOf n

/-- The complete chunks of the index list that contain the position `j` (the
triangles whose color write lands on vertex `j`). -/
def writersAt (indices : List Nat) (j : Nat) : List (List Nat) :=
  (chunks3 indices).filter (fun ch => ch.length == 3 && ch.contains j)

/-- Spec-side: the final color of vertex `j` — the color of the last complete
triangle containing `j`, or the default white if none does. -/
def specColorAt {α : Type} [LinearOrderedField α] (normals : List (Vec3 α))
    (walkable_thr : α) (indices : List Nat) (j : Nat) : Col α :=
  match (writersAt indices j).getLast? with
  | some ch => triangleColor normals walkable_thr ch
  | none => (1, 1, 1, 1)

/-- Spec-side: the whole color sequence, one color per vertex position. -/
def specColors {α : Type} [LinearOrderedField α] (vertices normals : List (Vec3 α))
    (indices : List Nat) (walkable_thr : α) : List (Col α) :=
  (List.range vertices.length).map (specColorAt normals walkable_thr indices)

/-- Spec-side: the normalized face normal of a complete chunk — the cross
product of the two edge vectors from the first corner, passed through the
(abstracted) normalization `nrm`. -/
def faceNormal {α : Type} [LinearOrderedField α] (nrm : Vec3 α → Vec3 α)
    (vertices : List (Vec3 α)) (ch : List Nat) : Vec3 α :=
  let v0 := vertices.getD (ch.getD 0 0) Vec3.zero
  let v1 := vertices.getD (ch.getD 1 0) Vec3.zero
  let v2 := vertices.getD (ch.getD 2 0) Vec3.zero
  nrm ((v1.sub v0).cross (v2.sub v0))

/-- Spec-side: the number of contributions of complete triangles to vertex
`j`, counting one per occurrence of `j` in a complete chunk. -/
def specCount (indices : List Nat) (j : Nat) : Nat :=
  ((chunks3 indices).filter (fun ch => ch.length == 3)).foldl
    (fun a ch => a + ch.count j) 0

/-- Spec-side: the accumulated (summed, not running-averaged) face-normal
contributions to vertex `j`, in triangle order. -/
def specSum {α : Type} [LinearOrderedField α] (nrm : Vec3 α → Vec3 α)
    (vertices : List (Vec3 α)) (indices : List Nat) (j : Nat) : Vec3 α :=
  ((chunks3 indices).filter (fun ch => ch.length == 3)).foldl
    (fun a ch => a.add (Vec3.nsmul (ch.count j) (faceNormal nrm vertices ch))) Vec3.zero

/-- C9: the actor-sync protocol frames each message as a 4-byte big-endian
length header followed by exactly that many payload bytes (returning nothing
when fewer than 4 header bytes are buffered), and the JSON payload decodes
into an `ActorMessage` discriminated by the `message_type` tag with exactly
the variants `Move{id, orig, dest}`, `Spawn{id, type, position}` and
`Despawn{id}` — every value round-trips, and any other tag is rejected. -/
theorem try_read_protocol :
    (∀ payload rest : List Nat, payload.length < 4294967296 →
      Net.try_read (Net.u32_to_be_bytes payload.length ++ (payload ++ rest)) =
        some (payload, rest)) ∧
    (∀ s : List Nat, s.length < 4 → Net.try_read s = none) ∧
    (∀ m : Net.ActorMessage,
      Net.decodeActorMessage (Net.encodeActorMessage m) = some m) ∧
    (∀ m : Net.ActorMessage,
      (∃ a, m = Net.ActorMessage.Move a) ∨ (∃ a, m = Net.ActorMessage.Spawn a) ∨
        (∃ a, m = Net.ActorMessage.Despawn a)) ∧
    (∀ (j : Net.Json) (tag : String),
      Net.getField j "message_type" = some (Net.Json.str tag) →
      tag ≠ "Move" → tag ≠ "Spawn" → tag ≠ "Despawn" →
      Net.decodeActorMessage j = none) := by
  refine ⟨?_, ?_, ?_, ?_, ?_⟩
  · intro payload rest hlen
    simp only [Net.u32_to_be_bytes, List.cons_append, List.nil_append, Net.try_read]
    have hcount : Net.u32_from_be_bytes (payload.length / 16777216 % 256)
        (payload.length / 65536 % 256) (payload.length / 256 % 256)
        (payload.length % 256) = payload.length := by
      unfold Net.u32_from_be_bytes; omega
    rw [hcount, if_pos (by simp), List.take_left, List.drop_left]
  · intro s h
    rcases s with _ | ⟨a, _ | ⟨b, _ | ⟨c, _ | ⟨d, t⟩⟩⟩⟩ <;> first
      | rfl
      | (simp only [List.length_cons] at h; omega)
  · intro m
    cases m <;> rfl
  · intro m
    rcases m with a | a | a
    · exact Or.inl ⟨a, rfl⟩
    · exact Or.inr (Or.inl ⟨a, rfl⟩)
    · exact Or.inr (Or.inr ⟨a, rfl⟩)
  · intro j tag hget h1 h2 h3
    unfold Net.decodeActorMessage
    rw [hget]
    simp [h1, h2, h3]

/-- Witness for `try_read_protocol`: a concrete framed 3-byte payload is read
back exactly. -/
theorem try_read_protocol_witness :
    ([7, 8, 9] : List Nat).length < 4294967296 ∧
      Net.try_read (Net.u32_to_be_bytes ([7, 8, 9] : List Nat).length ++
        (([7, 8, 9] : List Nat) ++ [5])) = some ([7, 8, 9], [5]) :=
  ⟨by decide, try_read_protocol.1 [7, 8, 9] [5] (by decide)⟩

/-- C6: fan triangulation — a face of `N ≥ 3` vertex indices yields exactly
`N - 2` triangles, triangle `k` (0-based, corresponding to `i = k + 2` in
`2..N`) being `(face[0], face[k+1], face[k+2])`, so every produced triangle
contains the face's first vertex index; a face with fewer than 3 vertices
yields no triangles and no error, and every produced triangle of a face of an
`ObjData` appears in its triangulation. -/
theorem trifan_fan (o : ObjData ℚ) (face : List Nat) (hface : face ∈ o.faces) :
    (3 ≤ face.length →
      (trifan face).length = face.length - 2 ∧
      (∀ k, k < face.length - 2 →
        (trifan face).getD k [] =
          [face.getD 0 0, face.getD (k + 1) 0, face.getD (k + 2) 0]) ∧
      (∀ t ∈ trifan face, face.getD 0 0 ∈ t ∧ t.length = 3)) ∧
    (face.length < 3 → trifan face = []) ∧
    (∀ t ∈ trifan face, t ∈ o.triangulate) := by
  refine ⟨fun h3 => ⟨?_, ?_, ?_⟩, fun hlt => ?_, fun t ht => ?_⟩
  · simp [trifan, Nat.not_lt.mpr h3]
  · intro k hk
    rw [trifan, if_neg (Nat.not_lt.mpr h3)]
    rw [List.getD_eq_getElem?_getD, List.getElem?_map]
    simp [List.getElem?_range hk]
  · intro t ht
    rw [trifan, if_neg (Nat.not_lt.mpr h3)] at ht
    rcases List.mem_map.mp ht with ⟨k, _, rfl⟩
    exact ⟨List.mem_cons_self _ _, rfl⟩
  · simp [trifan, hlt]
  · exact List.mem_flatMap.mpr ⟨face, hface, ht⟩

/-- Witness for `trifan_fan`: a concrete quad face in a one-face `ObjData`. -/
theorem trifan_fan_witness :
    ([1, 2, 3, 4] ∈ (ObjData.mk ([] : List (Vec3 ℚ)) [[1, 2, 3, 4]]).faces) ∧
      (3 ≤ ([1, 2, 3, 4] : List Nat).length →
        (trifan [1, 2, 3, 4]).length = ([1, 2, 3, 4] : List Nat).length - 2 ∧
        (∀ k, k < ([1, 2, 3, 4] : List Nat).length - 2 →
          (trifan [1, 2, 3, 4]).getD k [] =
            [([1, 2, 3, 4] : List Nat).getD 0 0, ([1, 2, 3, 4] : List Nat).getD (k + 1) 0,
             ([1, 2, 3, 4] : List Nat).getD (k + 2) 0]) ∧
        (∀ t ∈ trifan [1, 2, 3, 4], ([1, 2, 3, 4] : List Nat).getD 0 0 ∈ t ∧ t.length = 3)) ∧
      (([1, 2, 3, 4] : List Nat).length < 3 → trifan [1, 2, 3, 4] = []) ∧
      (∀ t ∈ trifan [1, 2, 3, 4],
        t ∈ (ObjData.mk ([] : List (Vec3 ℚ)) [[1, 2, 3, 4]]).triangulate) :=
  ⟨by decide, trifan_fan (ObjData.mk ([] : List (Vec3 ℚ)) [[1, 2, 3, 4]]) [1, 2, 3, 4] (by decide)⟩

theorem writeAll_length {α : Type} (c : Col α) (ch : List Nat) (cs : List (Col α)) :
    (writeAll c ch cs).length = cs.length := by
  induction ch generalizing cs with
  | nil => rfl
  | cons a tl ih =>
    show (writeAll c tl (cs.set a c)).length = cs.length
    rw [ih, List.length_set]

theorem getD_writeAll {α : Type} (c : Col α) (ch : List Nat) (cs : List (Col α))
    (j : Nat) (d : Col α) (hj : j < cs.length) :
    (writeAll c ch cs).getD j d = if j ∈ ch then c else cs.getD j d := by
  induction ch generalizing cs with
  | nil => simp [writeAll]
  | cons a tl ih =>
    show (writeAll c tl (cs.set a c)).getD j d = _
    rw [ih _ (by rw [List.length_set]; exact hj)]
    by_cases hjt : j ∈ tl
    · simp [hjt, List.mem_cons]
    · by_cases haj : a = j
      · subst haj
        simp [hjt, List.mem_cons, List.getD_eq_getElem?_getD,
          List.getElem?_set_self hj]
      · simp [hjt, List.mem_cons, Ne.symm haj, List.getD_eq_getElem?_getD,
          List.getElem?_set_ne haj]

theorem colorStep_eq {α : Type} [LinearOrderedField α] (normals : List (Vec3 α))
    (thr : α) (colors : List (Col α)) (ch : List Nat) (h3 : ch.length = 3) :
    colorStep normals thr colors ch = writeAll (triangleColor normals thr ch) ch colors := by
  rw [colorStep, if_pos h3]
  rfl

theorem colorStep_length {α : Type} [LinearOrderedField α] (normals : List (Vec3 α))
    (thr : α) (colors : List (Col α)) (ch : List Nat) :
    (colorStep normals thr colors ch).length = colors.length := by
  by_cases h3 : ch.length = 3
  · rw [colorStep_eq _ _ _ _ h3, writeAll_length]
  · rw [colorStep, if_neg h3]

theorem foldl_colorStep_length {α : Type} [LinearOrderedField α]
    (normals : List (Vec3 α)) (thr : α) (chs : List (List Nat)) (init : List (Col α)) :
    (chs.foldl (colorStep normals thr) init).length = init.length := by
  induction chs generalizing init with
  | nil => rfl
  | cons ch tl ih =>
    show (tl.foldl _ (colorStep normals thr init ch)).length = _
    rw [ih, colorStep_length]

theorem getD_foldl_colorStep {α : Type} [LinearOrderedField α]
    (normals : List (Vec3 α)) (thr : α) (chs : List (List Nat))
    (init : List (Col α)) (j : Nat) (d : Col α) (hj : j < init.length) :
    (chs.foldl (colorStep normals thr) init).getD j d =
      match (chs.filter (fun ch => ch.length == 3 && ch.contains j)).getLast? with
      | some ch => triangleColor normals thr ch
      | none => init.getD j d := by
  induction chs generalizing init with
  | nil => rfl
  | cons ch tl ih =>
    show (tl.foldl _ (colorStep normals thr init ch)).getD j d = _
    have hj2 : j < (colorStep normals thr init ch).length := by
      rw [colorStep_length]; exact hj
    by_cases h3 : ch.length = 3
    · by_cases hmem : j ∈ ch
      · have hcond : (ch.length == 3 && ch.contains j) = true := by
          simp [h3, hmem]
        have hstep : (colorStep normals thr init ch).getD j d =
            triangleColor normals thr ch := by
          rw [colorStep_eq _ _ _ _ h3, getD_writeAll _ _ _ _ _ hj, if_pos hmem]
        have hfil : List.filter (fun c => c.length == 3 && c.contains j) (ch :: tl) =
            ch :: List.filter (fun c => c.length == 3 && c.contains j) tl :=
          List.filter_cons_of_pos hcond
        rw [hfil, ih _ hj2]
        cases hF : tl.filter (fun c => c.length == 3 && c.contains j) with
        | nil => simpa using hstep
        | cons b L =>
          rw [List.getLast?_cons_cons]
          cases hg : (b :: L).getLast? with
          | none => simp at hg
          | some ch2 => rfl
      · have hcond : ¬((ch.length == 3 && ch.contains j) = true) := by
          simp [hmem]
        have hstep : (colorStep normals thr init ch).getD j d = init.getD j d := by
          rw [colorStep_eq _ _ _ _ h3, getD_writeAll _ _ _ _ _ hj, if_neg hmem]
        have hfil : List.filter (fun c => c.length == 3 && c.contains j) (ch :: tl) =
            List.filter (fun c => c.length == 3 && c.contains j) tl :=
          List.filter_cons_of_neg hcond
        rw [hfil, ih _ hj2, hstep]
    · have hcond : ¬((ch.length == 3 && ch.contains j) = true) := by
        simp [h3]
      have hstep : colorStep normals thr init ch = init := by
        rw [colorStep, if_neg h3]
      have hfil : List.filter (fun c => c.length == 3 && c.contains j) (ch :: tl) =
          List.filter (fun c => c.length == 3 && c.contains j) tl :=
        List.filter_cons_of_neg hcond
      rw [hfil, ih _ hj2, hstep]

theorem calculate_colorsCore_length {α : Type} [LinearOrderedField α]
    (vertices normals : List (Vec3 α)) (indices : List Nat) (thr : α) :
    (calculate_colorsCore vertices indices normals thr).length = vertices.length := by
  rw [calculate_colorsCore, foldl_colorStep_length, List.length_replicate]

theorem calculate_colorsCore_getD {α : Type} [LinearOrderedField α]
    (vertices normals : List (Vec3 α)) (indices : List Nat) (thr : α)
    (j : Nat) (d : Col α) (hj : j < vertices.length) :
    (calculate_colorsCore vertices indices normals thr).getD j d =
      specColorAt normals thr indices j := by
  rw [calculate_colorsCore,
    getD_foldl_colorStep _ _ _ _ _ _ (by rw [List.length_replicate]; exact hj)]
  rw [specColorAt, writersAt]
  cases (chunks3 indices).filter (fun ch => ch.length == 3 && ch.contains j) |>.getLast? with
  | some ch => rfl
  | none =>
    simp [List.getD_eq_getElem?_getD, List.getElem?_replicate_of_lt hj]

/-- C4: `calculate_colors` computes `threshold = cos(radians(angle))` and
produces exactly the spec coloring — for each complete triangle, the
representative normal is the normal at the triangle's first index only, the
grey brightness is `(220 * (2 + n.x + n.y) / 4) / 255` unclamped, a triangle
whose representative normal has `y < threshold` gets grey blended toward the
tint `(192/255, 128/255, 0, 1)` with weight `64/255`, otherwise pure grey,
and all three of its vertex slots receive that identical color (a later
triangle sharing a slot overwrites it, so each slot holds the color of its
last writing triangle). -/
theorem calculate_colors_formula (vertices normals : List (Vec3 ℝ)) (indices : List Nat)
    (walkable_slope_angle : ℝ) :
    calculate_colors vertices indices normals walkable_slope_angle =
      specColors vertices normals indices
        (Real.cos (walkable_slope_angle * (Real.pi / 180))) := by
  apply List.ext_getElem
  · simp only [calculate_colors]
    rw [calculate_colorsCore_length, specColors, List.length_map, List.length_range]
  · intro k h1 h2
    simp only [calculate_colors] at h1 ⊢
    have hk : k < vertices.length := by
      rw [calculate_colorsCore_length] at h1; exact h1
    rw [← List.getD_eq_getElem _ ((1, 1, 1, 1) : Col ℝ) h1,
      calculate_colorsCore_getD _ _ _ _ _ _ hk]
    simp only [specColors]
    rw [List.getElem_map, List.getElem_range]

/-- C8: at the angle extremes (threshold `cos 0 = 1` and `cos 90° = 0`), a
vertex whose last writing triangle has representative normal with `y < 1` is
tinted unwalkable at angle 0, and one whose representative normal has
`y ≥ 0` is pure grey at angle 90. -/
theorem calculate_colors_extreme_angles (vertices normals : List (Vec3 ℝ))
    (indices : List Nat) (j : Nat) (ch : List Nat) (hj : j < vertices.length)
    (hch : (writersAt indices j).getLast? = some ch) :
    ((normals.getD (ch.getD 0 0) Vec3.zero).y < 1 →
      (calculate_colors vertices indices normals 0).getD j (1, 1, 1, 1) =
        tintedOf (normals.getD (ch.getD 0 0) Vec3.zero)) ∧
    (0 ≤ (normals.getD (ch.getD 0 0) Vec3.zero).y →
      (calculate_colors vertices indices normals 90).getD j (1, 1, 1, 1) =
        greyOf (normals.getD (ch.getD 0 0) Vec3.zero)) := by
  constructor
  · intro hy
    rw [calculate_colors, calculate_colorsCore_getD _ _ _ _ _ _ hj,
      specColorAt, hch]
    have hthr : Real.cos (0 * (Real.pi / 180)) = 1 := by
      rw [zero_mul, Real.cos_zero]
    rw [hthr]
    simp only [triangleColor]
    rw [if_pos hy]
  · intro hy
    rw [calculate_colors, calculate_colorsCore_getD _ _ _ _ _ _ hj,
      specColorAt, hch]
    have hthr : Real.cos (90 * (Real.pi / 180)) = 0 := by
      rw [show (90 : ℝ) * (Real.pi / 180) = Real.pi / 2 by ring,
        Real.cos_pi_div_two]
    rw [hthr]
    simp only [triangleColor]
    rw [if_neg (not_lt.mpr hy)]

/-- Witness for `calculate_colors_extreme_angles`: one degenerate triangle
whose representative normal is the zero vector, so `y = 0` fires both the
`y < 1` branch at angle 0 and the `y ≥ 0` branch at angle 90. -/
theorem calculate_colors_extreme_angles_witness :
    (0 < ([(⟨0, 0, 0⟩ : Vec3 ℝ)] : List (Vec3 ℝ)).length) ∧
    ((writersAt [0, 0, 0] 0).getLast? = some [0, 0, 0]) ∧
    ((([(⟨0, 0, 0⟩ : Vec3 ℝ)] : List (Vec3 ℝ)).getD (([0, 0, 0] : List Nat).getD 0 0) Vec3.zero).y < 1 →
      (calculate_colors [⟨0, 0, 0⟩] [0, 0, 0] [⟨0, 0, 0⟩] 0).getD 0 (1, 1, 1, 1) =
        tintedOf (([(⟨0, 0, 0⟩ : Vec3 ℝ)] : List (Vec3 ℝ)).getD (([0, 0, 0] : List Nat).getD 0 0) Vec3.zero)) ∧
    (0 ≤ (([(⟨0, 0, 0⟩ : Vec3 ℝ)] : List (Vec3 ℝ)).getD (([0, 0, 0] : List Nat).getD 0 0) Vec3.zero).y →
      (calculate_colors [⟨0, 0, 0⟩] [0, 0, 0] [⟨0, 0, 0⟩] 90).getD 0 (1, 1, 1, 1) =
        greyOf (([(⟨0, 0, 0⟩ : Vec3 ℝ)] : List (Vec3 ℝ)).getD (([0, 0, 0] : List Nat).getD 0 0) Vec3.zero)) := by
  refine ⟨by decide, by decide, ?_⟩
  exact calculate_colors_extreme_angles [⟨0, 0, 0⟩] [⟨0, 0, 0⟩] [0, 0, 0] 0 [0, 0, 0]
    (by decide) (by decide)

/-- C10: `calculate_colors` returns one color per vertex, and a vertex not
contained in any complete triangle chunk (in particular one referenced only
by a trailing chunk shorter than 3) keeps the default color
`[1.0, 1.0, 1.0, 1.0]`. -/
theorem calculate_colors_length_default (vertices normals : List (Vec3 ℝ))
    (indices : List Nat) (walkable_slope_angle : ℝ) (j : Nat)
    (hj : j < vertices.length) (hnw : writersAt indices j = []) :
    (calculate_colors vertices indices normals walkable_slope_angle).length =
      vertices.length ∧
    (calculate_colors vertices indices normals walkable_slope_angle).getD j (0, 0, 0, 0) =
      (1, 1, 1, 1) := by
  constructor
  · simp only [calculate_colors]
    rw [calculate_colorsCore_length]
  · simp only [calculate_colors]
    rw [calculate_colorsCore_getD _ _ _ _ _ _ hj, specColorAt, hnw]
    rfl

/-- Witness for `calculate_colors_length_default`: vertex 0 is referenced only
by the trailing 2-element chunk of `[0, 1]`, so it keeps the default white. -/
theorem calculate_colors_length_default_witness :
    (0 < ([(⟨0, 0, 0⟩ : Vec3 ℝ), ⟨1, 0, 0⟩] : List (Vec3 ℝ)).length) ∧
    (writersAt [0, 1] 0 = []) ∧
    ((calculate_colors [⟨0, 0, 0⟩, ⟨1, 0, 0⟩] [0, 1] [⟨0, 1, 0⟩, ⟨0, 1, 0⟩] 45).length = 2 ∧
      (calculate_colors [⟨0, 0, 0⟩, ⟨1, 0, 0⟩] [0, 1] [⟨0, 1, 0⟩, ⟨0, 1, 0⟩] 45).getD 0 (0, 0, 0, 0) =
        (1, 1, 1, 1)) := by
  refine ⟨by decide, by decide, ?_⟩
  exact calculate_colors_length_default [⟨0, 0, 0⟩, ⟨1, 0, 0⟩] [⟨0, 1, 0⟩, ⟨0, 1, 0⟩]
    [0, 1] 45 0 (by decide) (by decide)

theorem lookupTile_updateTile_self {α : Type} (k : Int × Int)
    (f : TileData α → TileData α) (m : TileMap α) :
    lookupTile k (updateTile k f m) =
      some (f ((lookupTile k m).getD ⟨[], [], []⟩)) := by
  induction m with
  | nil => simp [updateTile, lookupTile]
  | cons p rest ih =>
    obtain ⟨k2, td⟩ := p
    by_cases hk : k2 = k
    · subst hk; simp [updateTile, lookupTile]
    · simp [updateTile, lookupTile, hk, ih]

theorem lookupTile_updateTile_ne {α : Type} (k2 k : Int × Int) (hne : k2 ≠ k)
    (f : TileData α → TileData α) (m : TileMap α) :
    lookupTile k2 (updateTile k f m) = lookupTile k2 m := by
  induction m with
  | nil => simp [updateTile, lookupTile, Ne.symm hne]
  | cons p rest ih =>
    obtain ⟨k3, td⟩ := p
    by_cases hk : k3 = k
    · subst hk
      simp only [updateTile, if_pos rfl, lookupTile]
      rw [if_neg hne.symm, if_neg hne.symm]
    · simp only [updateTile, if_neg hk, lookupTile]
      by_cases hk2 : k3 = k2
      · rw [if_pos hk2, if_pos hk2]
      · rw [if_neg hk2, if_neg hk2, ih]

theorem mem_keys_iff_lookupTile {α : Type} (k : Int × Int) (m : TileMap α) :
    k ∈ m.map Prod.fst ↔ (lookupTile k m).isSome := by
  induction m with
  | nil => simp [lookupTile]
  | cons p rest ih =>
    obtain ⟨k2, td⟩ := p
    by_cases hk : k2 = k
    · subst hk; simp [lookupTile]
    · simp [lookupTile, hk, ih, Ne.symm hk]

theorem lookupTile_mem {α : Type} (k : Int × Int) (m : TileMap α)
    (td : TileData α) (h : lookupTile k m = some td) : (k, td) ∈ m := by
  induction m with
  | nil => simp [lookupTile] at h
  | cons p rest ih =>
    obtain ⟨k2, td2⟩ := p
    by_cases hk : k2 = k
    · subst hk
      rw [lookupTile, if_pos rfl, Option.some_inj] at h
      subst h
      exact List.mem_cons_self _ _
    · rw [lookupTile, if_neg hk] at h
      exact List.mem_cons_of_mem _ (ih h)

theorem keys_updateTile {α : Type} (k : Int × Int) (f : TileData α → TileData α)
    (m : TileMap α) :
    (updateTile k f m).map Prod.fst =
      if (lookupTile k m).isSome then m.map Prod.fst
      else m.map Prod.fst ++ [k] := by
  induction m with
  | nil => simp [updateTile, lookupTile]
  | cons p rest ih =>
    obtain ⟨k2, td⟩ := p
    by_cases hk : k2 = k
    · subst hk; simp [updateTile, lookupTile]
    · simp only [updateTile, if_neg hk, lookupTile, List.map_cons]
      by_cases h : (lookupTile k rest).isSome
      · simp [h, ih]
      · simp [h, ih]

theorem nodup_keys_updateTile {α : Type} (k : Int × Int)
    (f : TileData α → TileData α) (m : TileMap α)
    (hnd : (m.map Prod.fst).Nodup) : ((updateTile k f m).map Prod.fst).Nodup := by
  rw [keys_updateTile]
  by_cases h : (lookupTile k m).isSome
  · simpa [h] using hnd
  · rw [if_neg h]
    refine hnd.append (List.nodup_singleton k) ?_
    intro a ha hak
    rw [List.mem_singleton] at hak
    subst hak
    rw [mem_keys_iff_lookupTile] at ha
    exact h ha

theorem mem_intRange (lo hi a : Int) : a ∈ intRange lo hi ↔ lo ≤ a ∧ a ≤ hi := by
  simp only [intRange, List.mem_map]
  constructor
  · rintro ⟨j, hj, rfl⟩
    rw [List.mem_range] at hj
    omega
  · rintro ⟨h1, h2⟩
    refine ⟨(a - lo).toNat, ?_, ?_⟩
    · rw [List.mem_range]; omega
    · omega

theorem nodup_intRange (lo hi : Int) : (intRange lo hi).Nodup := by
  rw [intRange]
  refine (List.nodup_range _).map ?_
  intro a b h
  have h2 : lo + (a : Int) = lo + (b : Int) := h
  omega

theorem mem_rectCoords (x0 x1 z0 z1 : Int) (k : Int × Int) :
    k ∈ rectCoords x0 x1 z0 z1 ↔
      x0 ≤ k.1 ∧ k.1 ≤ x1 ∧ z0 ≤ k.2 ∧ k.2 ≤ z1 := by
  obtain ⟨kx, kz⟩ := k
  simp only [rectCoords, List.mem_flatMap, List.mem_map]
  constructor
  · rintro ⟨tx, htx, tz, htz, h⟩
    cases h
    rw [mem_intRange] at htx htz
    exact ⟨htx.1, htx.2, htz.1, htz.2⟩
  · rintro ⟨h1, h2, h3, h4⟩
    exact ⟨kx, (mem_intRange _ _ _).mpr ⟨h1, h2⟩, kz, (mem_intRange _ _ _).mpr ⟨h3, h4⟩, rfl⟩

theorem nodup_rectCoords (x0 x1 z0 z1 : Int) : (rectCoords x0 x1 z0 z1).Nodup := by
  rw [rectCoords, List.nodup_flatMap]
  constructor
  · intro tx _
    refine (nodup_intRange z0 z1).map ?_
    intro a b h
    exact congrArg Prod.snd h
  · refine List.Pairwise.imp ?_ ((nodup_intRange x0 x1))
    intro a b hab x hxa hxb
    rcases List.mem_map.mp hxa with ⟨za, _, rfl⟩
    rcases List.mem_map.mp hxb with ⟨zb, _, h⟩
    exact hab (congrArg Prod.fst h).symm

theorem lookupTile_foldl_updateTile {α : Type} (g : TileData α → TileData α)
    (cs : List (Int × Int)) (hnd : cs.Nodup) (m : TileMap α) (k : Int × Int) :
    lookupTile k (cs.foldl (fun m2 c => updateTile c g m2) m) =
      if k ∈ cs then some (g ((lookupTile k m).getD ⟨[], [], []⟩))
      else lookupTile k m := by
  induction cs generalizing m with
  | nil => simp
  | cons c tl ih =>
    have hnd2 : tl.Nodup := (List.nodup_cons.mp hnd).2
    show lookupTile k (tl.foldl _ (updateTile c g m)) = _
    by_cases hk : k = c
    · subst hk
      have hknot : k ∉ tl := (List.nodup_cons.mp hnd).1
      rw [ih hnd2, if_neg hknot, lookupTile_updateTile_self,
        if_pos (List.mem_cons_self _ _)]
    · rw [ih hnd2, lookupTile_updateTile_ne _ _ hk]
      by_cases hmem : k ∈ tl
      · rw [if_pos hmem, if_pos (List.mem_cons_of_mem _ hmem)]
      · rw [if_neg hmem, if_neg (by simp [List.mem_cons, hk, hmem])]

theorem keys_foldl_updateTile_nodup {α : Type} (g : TileData α → TileData α)
    (cs : List (Int × Int)) (m : TileMap α)
    (hnd : (m.map Prod.fst).Nodup) :
    ((cs.foldl (fun m2 c => updateTile c g m2) m).map Prod.fst).Nodup := by
  induction cs generalizing m with
  | nil => exact hnd
  | cons c tl ih =>
    exact ih _ (nodup_keys_updateTile _ _ _ hnd)

theorem wfTD_empty {α : Type} : wfTD (⟨[], [], []⟩ : TileData α) := ⟨rfl, rfl⟩

theorem extendTD_extendTD {α : Type} (td : TileData α) (v1 n1 v2 n2 : List (Vec3 α)) :
    extendTD (extendTD td v1 n1) v2 n2 = extendTD td (v1 ++ v2) (n1 ++ n2) := by
  simp [extendTD, List.append_assoc, Nat.add_assoc]

theorem pushTri_eq_extendTD {α : Type} (td : TileData α) (h : wfTD td)
    (v0 v1 v2 n0 n1 n2 : Vec3 α) :
    pushTri v0 v1 v2 n0 n1 n2 td = extendTD td [v0, v1, v2] [n0, n1, n2] := by
  obtain ⟨hi, hn⟩ := h
  rw [pushTri, extendTD, hi]
  have hr : List.range (td.verts.length + 3) =
      List.range td.verts.length ++ [td.verts.length, td.verts.length + 1,
        td.verts.length + 2] := by
    rw [show td.verts.length + 3 = ((td.verts.length + 1) + 1) + 1 by omega,
      List.range_succ, List.range_succ, List.range_succ]
    simp
  have hlen3 : ([v0, v1, v2] : List (Vec3 α)).length = 3 := rfl
  rw [hlen3, hr]

theorem extendTD_nil {α : Type} (td : TileData α) (h : wfTD td) :
    extendTD td [] [] = td := by
  obtain ⟨hi, hn⟩ := h
  cases td with
  | mk verts inds norms =>
    simp only [extendTD, List.append_nil, List.length_nil, Nat.add_zero]
    simp at hi
    rw [← hi]

theorem wfTD_extendTD {α : Type} (td : TileData α) (h : wfTD td)
    (v n : List (Vec3 α)) (hlen : n.length = v.length) :
    wfTD (extendTD td v n) := by
  obtain ⟨hi, hn⟩ := h
  refine ⟨?_, ?_⟩
  · simp [extendTD, List.length_append]
  · simp [extendTD, List.length_append, hn, hlen]

theorem wfTD_pushTri {α : Type} (td : TileData α) (h : wfTD td)
    (v0 v1 v2 n0 n1 n2 : Vec3 α) : wfTD (pushTri v0 v1 v2 n0 n1 n2 td) := by
  rw [pushTri_eq_extendTD td h]
  exact wfTD_extendTD td h _ _ rfl

theorem wf_updateTile {α : Type} (k : Int × Int) (f : TileData α → TileData α)
    (m : TileMap α) (hf : ∀ td, wfTD td → wfTD (f td))
    (hm : ∀ p ∈ m, wfTD p.2) : ∀ p ∈ updateTile k f m, wfTD p.2 := by
  induction m with
  | nil =>
    intro p hp
    rw [updateTile, List.mem_singleton] at hp
    subst hp
    exact hf _ wfTD_empty
  | cons q rest ih =>
    obtain ⟨k2, td⟩ := q
    intro p hp
    by_cases hk : k2 = k
    · rw [updateTile, if_pos hk, List.mem_cons] at hp
      rcases hp with hp | hp
      · subst hp
        exact hf _ (hm (k2, td) (List.mem_cons_self _ _))
      · exact hm p (List.mem_cons_of_mem _ hp)
    · rw [updateTile, if_neg hk, List.mem_cons] at hp
      rcases hp with hp | hp
      · subst hp
        exact hm (k2, td) (List.mem_cons_self _ _)
      · exact ih (fun q hq => hm q (List.mem_cons_of_mem _ hq)) p hp

theorem wf_foldl_updateTile {α : Type} (g : TileData α → TileData α)
    (hg : ∀ td, wfTD td → wfTD (g td)) (cs : List (Int × Int)) (m : TileMap α)
    (hm : ∀ p ∈ m, wfTD p.2) :
    ∀ p ∈ cs.foldl (fun m2 c => updateTile c g m2) m, wfTD p.2 := by
  induction cs generalizing m with
  | nil => exact hm
  | cons c tl ih =>
    exact ih _ (wf_updateTile c g m hg hm)

theorem wf_addTriangle {α : Type} [LinearOrderedField α] [FloorRing α]
    (vertices normals : List (Vec3 α)) (ts : α) (m : TileMap α) (t : List Nat)
    (hm : ∀ p ∈ m, wfTD p.2) : ∀ p ∈ addTriangle vertices normals ts m t, wfTD p.2 := by
  by_cases h3 : t.length = 3
  · rw [addTriangle, if_pos h3]
    exact wf_foldl_updateTile _ (fun td h => wfTD_pushTri td h _ _ _ _ _ _) _ _ hm
  · rw [addTriangle, if_neg h3]
    exact hm

theorem keys_addTriangle_nodup {α : Type} [LinearOrderedField α] [FloorRing α]
    (vertices normals : List (Vec3 α)) (ts : α) (m : TileMap α) (t : List Nat)
    (hnd : (m.map Prod.fst).Nodup) :
    ((addTriangle vertices normals ts m t).map Prod.fst).Nodup := by
  by_cases h3 : t.length = 3
  · rw [addTriangle, if_pos h3]
    exact keys_foldl_updateTile_nodup _ _ _ hnd
  · rw [addTriangle, if_neg h3]
    exact hnd

theorem coversB_iff_mem_rect {α : Type} [LinearOrderedField α] [FloorRing α]
    (vertices : List (Vec3 α)) (ts : α) (k : Int × Int) (t : List Nat) :
    coversB vertices ts k t = true ↔
      t.length = 3 ∧ k ∈ rectCoords (triRect vertices ts t).1
        (triRect vertices ts t).2.1 (triRect vertices ts t).2.2.1
        (triRect vertices ts t).2.2.2 := by
  rw [coversB, mem_rectCoords]
  simp [and_assoc]

theorem lookupTile_addTriangle {α : Type} [LinearOrderedField α] [FloorRing α]
    (vertices normals : List (Vec3 α)) (ts : α) (m : TileMap α) (t : List Nat)
    (k : Int × Int) :
    lookupTile k (addTriangle vertices normals ts m t) =
      if coversB vertices ts k t = true then
        some (pushTri (cornerOf vertices t 0) (cornerOf vertices t 1)
          (cornerOf vertices t 2) (cornerOf normals t 0) (cornerOf normals t 1)
          (cornerOf normals t 2) ((lookupTile k m).getD ⟨[], [], []⟩))
      else lookupTile k m := by
  by_cases h3 : t.length = 3
  · rw [addTriangle, if_pos h3,
      lookupTile_foldl_updateTile _ _ (nodup_rectCoords _ _ _ _)]
    by_cases hc : coversB vertices ts k t = true
    · rw [if_pos ((coversB_iff_mem_rect _ _ _ _).mp hc).2, if_pos hc]
    · rw [if_neg (fun hmem => hc ((coversB_iff_mem_rect _ _ _ _).mpr ⟨h3, hmem⟩)),
        if_neg hc]
  · rw [addTriangle, if_neg h3]
    have hcf : ¬coversB vertices ts k t = true := by
      rw [coversB]
      simp [h3]
    rw [if_neg hcf]

theorem lookupTile_foldl_addTriangle {α : Type} [LinearOrderedField α] [FloorRing α]
    (vertices normals : List (Vec3 α)) (ts : α) (tris : List (List Nat))
    (m : TileMap α) (k : Int × Int) (hm : ∀ p ∈ m, wfTD p.2) :
    lookupTile k (tris.foldl (addTriangle vertices normals ts) m) =
      if (lookupTile k m).isSome = true ∨ tris.any (coversB vertices ts k) = true then
        some (extendTD ((lookupTile k m).getD ⟨[], [], []⟩)
          (specTileVerts vertices ts k tris)
          (specTileNorms vertices normals ts k tris))
      else none := by
  induction tris generalizing m with
  | nil =>
    simp only [List.foldl_nil, List.any_nil, Bool.false_eq_true, or_false]
    cases hL : lookupTile k m with
    | none => simp [specTileVerts, specTileNorms]
    | some td =>
      have hwf : wfTD td := hm (k, td) (lookupTile_mem k m td hL)
      rw [if_pos (by simp)]
      rw [show specTileVerts vertices ts k [] = [] from rfl,
        show specTileNorms vertices normals ts k [] = [] from rfl]
      simp only [Option.getD_some]
      rw [extendTD_nil td hwf]
  | cons t rest ih =>
    simp only [List.foldl_cons, List.any_cons]
    rw [ih _ (wf_addTriangle vertices normals ts m t hm),
      lookupTile_addTriangle vertices normals ts m t k]
    by_cases hc : coversB vertices ts k t = true
    · rw [if_pos hc]
      simp only [hc, Bool.true_or]
      have hwfprev : wfTD ((lookupTile k m).getD ⟨[], [], []⟩) := by
        cases hL : lookupTile k m with
        | none => exact wfTD_empty
        | some td =>
          simpa using hm (k, td) (lookupTile_mem k m td hL)
      have hfil : List.filter (coversB vertices ts k) (t :: rest) =
          t :: List.filter (coversB vertices ts k) rest :=
        List.filter_cons_of_pos hc
      have hfV : specTileVerts vertices ts k (t :: rest) =
          triVerts vertices t ++ specTileVerts vertices ts k rest := by
        rw [specTileVerts, hfil, List.flatMap_cons, specTileVerts]
      have hfN : specTileNorms vertices normals ts k (t :: rest) =
          triVerts normals t ++ specTileNorms vertices normals ts k rest := by
        rw [specTileNorms, hfil, List.flatMap_cons, specTileNorms]
      simp only [Option.isSome_some, Option.getD_some, eq_self_iff_true, true_or,
        or_true, if_true]
      rw [pushTri_eq_extendTD _ hwfprev, extendTD_extendTD, hfV, hfN,
        triVerts, triVerts]
    · have hcf : coversB vertices ts k t = false := by
        revert hc
        cases coversB vertices ts k t <;> simp
      rw [if_neg hc]
      simp only [hcf, Bool.false_or]
      have hfil : List.filter (coversB vertices ts k) (t :: rest) =
          List.filter (coversB vertices ts k) rest :=
        List.filter_cons_of_neg (by simp [hcf])
      have hfV : specTileVerts vertices ts k (t :: rest) =
          specTileVerts vertices ts k rest := by
        rw [specTileVerts, hfil, specTileVerts]
      have hfN : specTileNorms vertices normals ts k (t :: rest) =
          specTileNorms vertices normals ts k rest := by
        rw [specTileNorms, hfil, specTileNorms]
      rw [hfV, hfN]

theorem wf_foldl_addTriangle {α : Type} [LinearOrderedField α] [FloorRing α]
    (vertices normals : List (Vec3 α)) (ts : α) (tris : List (List Nat))
    (m : TileMap α) (hm : ∀ p ∈ m, wfTD p.2) :
    ∀ p ∈ tris.foldl (addTriangle vertices normals ts) m, wfTD p.2 := by
  induction tris generalizing m with
  | nil => exact hm
  | cons t rest ih =>
    exact ih _ (wf_addTriangle vertices normals ts m t hm)

theorem keys_foldl_addTriangle_nodup {α : Type} [LinearOrderedField α] [FloorRing α]
    (vertices normals : List (Vec3 α)) (ts : α) (tris : List (List Nat))
    (m : TileMap α) (hnd : (m.map Prod.fst).Nodup) :
    ((tris.foldl (addTriangle vertices normals ts) m).map Prod.fst).Nodup := by
  induction tris generalizing m with
  | nil => exact hnd
  | cons t rest ih =>
    exact ih _ (keys_addTriangle_nodup vertices normals ts m t hnd)

theorem lookupTile_eq_of_mem {α : Type} (m : TileMap α) (k : Int × Int)
    (td : TileData α) (hnd : (m.map Prod.fst).Nodup)
    (hmem : (k, td) ∈ m) : lookupTile k m = some td := by
  induction m with
  | nil => simp at hmem
  | cons p rest ih =>
    obtain ⟨k1, td1⟩ := p
    rcases List.mem_cons.mp hmem with h | h
    · obtain ⟨h1, h2⟩ := Prod.mk.injEq .. ▸ h
      subst h1
      subst h2
      rw [lookupTile, if_pos rfl]
    · have hk1 : k1 ≠ k := by
        intro heq
        subst heq
        have : k1 ∈ rest.map Prod.fst := List.mem_map.mpr ⟨(k1, td), h, rfl⟩
        exact (List.nodup_cons.mp (by simpa using hnd)).1 this
      rw [lookupTile, if_neg hk1]
      exact ih (List.Nodup.of_cons (by simpa using hnd)) h

theorem split_lookup_eq {α : Type} [LinearOrderedField α] [FloorRing α]
    (vertices normals : List (Vec3 α)) (indices : List Nat) (tile_size : α)
    (k : Int × Int) :
    lookupTile k (split_mesh_into_tiles vertices indices normals tile_size) =
      if (chunks3 indices).any (coversB vertices tile_size k) = true then
        some ⟨specTileVerts vertices tile_size k (chunks3 indices),
          List.range (specTileVerts vertices tile_size k (chunks3 indices)).length,
          specTileNorms vertices normals tile_size k (chunks3 indices)⟩
      else none := by
  rw [split_mesh_into_tiles,
    lookupTile_foldl_addTriangle _ _ _ _ _ _ (by intro p hp; simp at hp)]
  have hnone : lookupTile k ([] : TileMap α) = none := rfl
  rw [hnone]
  simp only [Option.isSome_none, Bool.false_eq_true, false_or, Option.getD_none]
  by_cases h : (chunks3 indices).any (coversB vertices tile_size k) = true
  · rw [if_pos h, if_pos h]
    rw [extendTD]
    simp
  · rw [if_neg h, if_neg h]

theorem split_keys_nodup {α : Type} [LinearOrderedField α] [FloorRing α]
    (vertices normals : List (Vec3 α)) (indices : List Nat) (tile_size : α) :
    ((split_mesh_into_tiles vertices indices normals tile_size).map Prod.fst).Nodup := by
  rw [split_mesh_into_tiles]
  exact keys_foldl_addTriangle_nodup _ _ _ _ _ (by simp)

theorem split_wf {α : Type} [LinearOrderedField α] [FloorRing α]
    (vertices normals : List (Vec3 α)) (indices : List Nat) (tile_size : α) :
    ∀ p ∈ split_mesh_into_tiles vertices indices normals tile_size, wfTD p.2 := by
  rw [split_mesh_into_tiles]
  exact wf_foldl_addTriangle vertices normals tile_size (chunks3 indices) []
    (by intro p hp; simp at hp)

theorem length_flatMap_triVerts {α : Type} [LinearOrderedField α]
    (data : List (Vec3 α)) (l : List (List Nat)) :
    (l.flatMap (triVerts data)).length = 3 * l.length := by
  induction l with
  | nil => rfl
  | cons t rest ih =>
    rw [List.flatMap_cons, List.length_append, ih, triVerts]
    simp only [List.length_cons, List.length_nil]
    omega

/-- C2: for positive `tile_size`, `split_mesh_into_tiles` assigns each tile
coordinate exactly the fresh per-triangle copies it should receive — the tile
at `k` exists iff some complete triangle's corner-coordinate bounding
rectangle (of the per-corner coordinates `(floor(x / tile_size),
floor(z / tile_size))`) contains `k`; its vertex and normal sequences are the
concatenated fresh corner copies of exactly those triangles in order; its
index sequence is the local re-indexing `0, 1, 2, ...`; and distinct tiles
have distinct coordinates. -/
theorem split_tiles_characterization {α : Type} [LinearOrderedField α] [FloorRing α]
    (vertices normals : List (Vec3 α)) (indices : List Nat) (tile_size : α)
    (hts : 0 < tile_size) (k : Int × Int) :
    (lookupTile k (split_mesh_into_tiles vertices indices normals tile_size) =
      if (chunks3 indices).any (coversB vertices tile_size k) = true then
        some ⟨specTileVerts vertices tile_size k (chunks3 indices),
          List.range (specTileVerts vertices tile_size k (chunks3 indices)).length,
          specTileNorms vertices normals tile_size k (chunks3 indices)⟩
      else none) ∧
    ((split_mesh_into_tiles vertices indices normals tile_size).map Prod.fst).Nodup :=
  ⟨split_lookup_eq vertices normals indices tile_size k,
   split_keys_nodup vertices normals indices tile_size⟩

/-- Witness for `split_tiles_characterization`: a single degenerate triangle in
the origin cell with unit tile size. -/
theorem split_tiles_characterization_witness :
    ((0 : ℚ) < 1) ∧
    ((lookupTile (0, 0) (split_mesh_into_tiles [(⟨0, 0, 0⟩ : Vec3 ℚ)] [0, 0, 0] [⟨0, 1, 0⟩] 1) =
      if (chunks3 [0, 0, 0]).any (coversB [(⟨0, 0, 0⟩ : Vec3 ℚ)] 1 (0, 0)) = true then
        some ⟨specTileVerts [(⟨0, 0, 0⟩ : Vec3 ℚ)] 1 (0, 0) (chunks3 [0, 0, 0]),
          List.range (specTileVerts [(⟨0, 0, 0⟩ : Vec3 ℚ)] 1 (0, 0) (chunks3 [0, 0, 0])).length,
          specTileNorms [(⟨0, 0, 0⟩ : Vec3 ℚ)] [⟨0, 1, 0⟩] 1 (0, 0) (chunks3 [0, 0, 0])⟩
      else none) ∧
    ((split_mesh_into_tiles [(⟨0, 0, 0⟩ : Vec3 ℚ)] [0, 0, 0] [⟨0, 1, 0⟩] 1).map Prod.fst).Nodup) :=
  ⟨by decide, split_tiles_characterization [(⟨0, 0, 0⟩ : Vec3 ℚ)] [⟨0, 1, 0⟩] [0, 0, 0] 1
    (by decide) (0, 0)⟩

/-- C3: every tile produced by `split_mesh_into_tiles` owns a wholly
independent, locally re-indexed triple — normals parallel to vertices, the
index sequence exactly `0, 1, ..., len - 1` (hence 3 index entries per
appended triangle, every index valid for that tile's own vertex sequence, and
no index slot shared between duplicated triangles), and no two tiles share a
coordinate. -/
theorem split_tiles_invariants {α : Type} [LinearOrderedField α] [FloorRing α]
    (vertices normals : List (Vec3 α)) (indices : List Nat) (tile_size : α)
    (k : Int × Int) (td : TileData α)
    (hmem : (k, td) ∈ split_mesh_into_tiles vertices indices normals tile_size) :
    td.norms.length = td.verts.length ∧
    td.inds = List.range td.verts.length ∧
    td.inds.length = td.verts.length ∧
    td.inds.length = 3 * ((chunks3 indices).filter (coversB vertices tile_size k)).length ∧
    td.inds.Nodup ∧
    (∀ i ∈ td.inds, i < td.verts.length) ∧
    ((split_mesh_into_tiles vertices indices normals tile_size).map Prod.fst).Nodup := by
  have hwf : wfTD td :=
    split_wf vertices normals indices tile_size (k, td) hmem
  have hnd := split_keys_nodup vertices normals indices tile_size
  obtain ⟨hi, hn⟩ := hwf
  have hlk := lookupTile_eq_of_mem _ _ _ hnd hmem
  rw [split_lookup_eq] at hlk
  have hverts : td.verts = specTileVerts vertices tile_size k (chunks3 indices) := by
    by_cases h : (chunks3 indices).any (coversB vertices tile_size k) = true
    · rw [if_pos h, Option.some_inj] at hlk
      rw [← hlk]
    · rw [if_neg h] at hlk
      exact absurd hlk (by simp)
  refine ⟨hn, hi, ?_, ?_, ?_, ?_, hnd⟩
  · rw [hi, List.length_range]
  · rw [hi, List.length_range, hverts, specTileVerts, length_flatMap_triVerts]
  · rw [hi]
    exact List.nodup_range _
  · intro i hii
    rw [hi] at hii
    exact List.mem_range.mp hii

theorem triRect_zero_example :
    triRect [(⟨0, 0, 0⟩ : Vec3 ℚ)] 1 [0, 0, 0] = (0, 0, 0, 0) := by
  have hc : cornerOf [(⟨0, 0, 0⟩ : Vec3 ℚ)] [0, 0, 0] 0 = ⟨0, 0, 0⟩ := rfl
  have hc1 : cornerOf [(⟨0, 0, 0⟩ : Vec3 ℚ)] [0, 0, 0] 1 = ⟨0, 0, 0⟩ := rfl
  have hc2 : cornerOf [(⟨0, 0, 0⟩ : Vec3 ℚ)] [0, 0, 0] 2 = ⟨0, 0, 0⟩ := rfl
  simp [triRect, hc, hc1, hc2, tileCoord]

theorem split_example_eq :
    split_mesh_into_tiles [(⟨0, 0, 0⟩ : Vec3 ℚ)] [0, 0, 0] [⟨0, 1, 0⟩] 1 =
      [((0, 0), ⟨[⟨0, 0, 0⟩, ⟨0, 0, 0⟩, ⟨0, 0, 0⟩], [0, 1, 2],
        [⟨0, 1, 0⟩, ⟨0, 1, 0⟩, ⟨0, 1, 0⟩]⟩)] := by
  rw [split_mesh_into_tiles, show chunks3 [0, 0, 0] = [[0, 0, 0]] from rfl,
    List.foldl_cons, List.foldl_nil, addTriangle, if_pos (by rfl), triRect_zero_example]
  rfl

/-- Witness for `split_tiles_invariants`: the single tile of a one-triangle
mesh. -/
theorem split_tiles_invariants_witness :
    (((0, 0), (⟨[⟨0, 0, 0⟩, ⟨0, 0, 0⟩, ⟨0, 0, 0⟩], [0, 1, 2],
        [⟨0, 1, 0⟩, ⟨0, 1, 0⟩, ⟨0, 1, 0⟩]⟩ : TileData ℚ)) ∈
      split_mesh_into_tiles [(⟨0, 0, 0⟩ : Vec3 ℚ)] [0, 0, 0] [⟨0, 1, 0⟩] 1) ∧
    ((⟨[⟨0, 0, 0⟩, ⟨0, 0, 0⟩, ⟨0, 0, 0⟩], [0, 1, 2],
        [⟨0, 1, 0⟩, ⟨0, 1, 0⟩, ⟨0, 1, 0⟩]⟩ : TileData ℚ).norms.length =
      (⟨[⟨0, 0, 0⟩, ⟨0, 0, 0⟩, ⟨0, 0, 0⟩], [0, 1, 2],
        [⟨0, 1, 0⟩, ⟨0, 1, 0⟩, ⟨0, 1, 0⟩]⟩ : TileData ℚ).verts.length ∧
      (⟨[⟨0, 0, 0⟩, ⟨0, 0, 0⟩, ⟨0, 0, 0⟩], [0, 1, 2],
        [⟨0, 1, 0⟩, ⟨0, 1, 0⟩, ⟨0, 1, 0⟩]⟩ : TileData ℚ).inds =
        List.range (⟨[⟨0, 0, 0⟩, ⟨0, 0, 0⟩, ⟨0, 0, 0⟩], [0, 1, 2],
          [⟨0, 1, 0⟩, ⟨0, 1, 0⟩, ⟨0, 1, 0⟩]⟩ : TileData ℚ).verts.length ∧
      (⟨[⟨0, 0, 0⟩, ⟨0, 0, 0⟩, ⟨0, 0, 0⟩], [0, 1, 2],
        [⟨0, 1, 0⟩, ⟨0, 1, 0⟩, ⟨0, 1, 0⟩]⟩ : TileData ℚ).inds.length =
        (⟨[⟨0, 0, 0⟩, ⟨0, 0, 0⟩, ⟨0, 0, 0⟩], [0, 1, 2],
          [⟨0, 1, 0⟩, ⟨0, 1, 0⟩, ⟨0, 1, 0⟩]⟩ : TileData ℚ).verts.length ∧
      (⟨[⟨0, 0, 0⟩, ⟨0, 0, 0⟩, ⟨0, 0, 0⟩], [0, 1, 2],
        [⟨0, 1, 0⟩, ⟨0, 1, 0⟩, ⟨0, 1, 0⟩]⟩ : TileData ℚ).inds.length =
        3 * ((chunks3 [0, 0, 0]).filter (coversB [(⟨0, 0, 0⟩ : Vec3 ℚ)] 1 (0, 0))).length ∧
      (⟨[⟨0, 0, 0⟩, ⟨0, 0, 0⟩, ⟨0, 0, 0⟩], [0, 1, 2],
        [⟨0, 1, 0⟩, ⟨0, 1, 0⟩, ⟨0, 1, 0⟩]⟩ : TileData ℚ).inds.Nodup ∧
      (∀ i ∈ (⟨[⟨0, 0, 0⟩, ⟨0, 0, 0⟩, ⟨0, 0, 0⟩], [0, 1, 2],
        [⟨0, 1, 0⟩, ⟨0, 1, 0⟩, ⟨0, 1, 0⟩]⟩ : TileData ℚ).inds,
        i < (⟨[⟨0, 0, 0⟩, ⟨0, 0, 0⟩, ⟨0, 0, 0⟩], [0, 1, 2],
          [⟨0, 1, 0⟩, ⟨0, 1, 0⟩, ⟨0, 1, 0⟩]⟩ : TileData ℚ).verts.length) ∧
      ((split_mesh_into_tiles [(⟨0, 0, 0⟩ : Vec3 ℚ)] [0, 0, 0] [⟨0, 1, 0⟩] 1).map
        Prod.fst).Nodup) :=
  ⟨by rw [split_example_eq]; exact List.mem_singleton.mpr rfl,
   split_tiles_invariants [(⟨0, 0, 0⟩ : Vec3 ℚ)] [⟨0, 1, 0⟩] [0, 0, 0] 1 (0, 0) _
     (by rw [split_example_eq]; exact List.mem_singleton.mpr rfl)⟩

theorem mem_of_mem_chunks3 {β : Type} (l : List β) (ch : List β)
    (hch : ch ∈ chunks3 l) : ∀ x ∈ ch, x ∈ l := by
  induction l using chunks3.induct with
  | case1 => simp [chunks3] at hch
  | case2 a b c rest ih =>
    rw [chunks3] at hch
    intro x hx
    rcases List.mem_cons.mp hch with h | h
    · subst h
      simp only [List.mem_cons] at hx ⊢
      rcases hx with h | h | h | h
      · exact Or.inl h
      · exact Or.inr (Or.inl h)
      · exact Or.inr (Or.inr (Or.inl h))
      · simp at h
    · simp only [List.mem_cons]
      exact Or.inr (Or.inr (Or.inr (ih h x hx)))
  | case3 rest h1 h2 =>
    rcases rest with _ | ⟨a, _ | ⟨b, r⟩⟩
    · exact absurd rfl h1
    · rw [show chunks3 [a] = [[a]] from rfl, List.mem_singleton] at hch
      subst hch
      exact fun x hx => hx
    · rcases r with _ | ⟨c, r2⟩
      · rw [show chunks3 [a, b] = [[a, b]] from rfl, List.mem_singleton] at hch
        subst hch
        exact fun x hx => hx
      · exact absurd rfl (h2 a b c r2)

theorem coversB_single_cell {α : Type} [LinearOrderedField α] [FloorRing α]
    (vertices : List (Vec3 α)) (ts : α) (c : Int × Int) (indices : List Nat)
    (hcell : ∀ v ∈ vertices, tileCoord ts v = c)
    (hvalid : ∀ i ∈ indices, i < vertices.length)
    (ch : List Nat) (hch : ch ∈ chunks3 indices) (h3 : ch.length = 3)
    (k : Int × Int) : (coversB vertices ts k ch = true ↔ k = c) := by
  have hcorner : ∀ i, i < 3 → tileCoord ts (cornerOf vertices ch i) = c := by
    intro i hi
    have hi2 : i < ch.length := by rw [h3]; exact hi
    have hmemch : ch.getD i 0 ∈ ch := by
      rw [List.getD_eq_getElem _ _ hi2]
      exact List.getElem_mem _
    have hidx : ch.getD i 0 ∈ indices := mem_of_mem_chunks3 _ _ hch _ hmemch
    have hlt : ch.getD i 0 < vertices.length := hvalid _ hidx
    have hv : cornerOf vertices ch i ∈ vertices := by
      rw [cornerOf, List.getD_eq_getElem _ _ hlt]
      exact List.getElem_mem _
    exact hcell _ hv
  have hrect : triRect vertices ts ch = (c.1, c.1, c.2, c.2) := by
    rw [triRect]
    rw [hcorner 0 (by omega), hcorner 1 (by omega), hcorner 2 (by omega)]
    simp
  rw [coversB, hrect]
  obtain ⟨kx, kz⟩ := k
  obtain ⟨cx, cz⟩ := c
  simp only [h3, beq_self_eq_true, Bool.true_and, Bool.and_eq_true,
    decide_eq_true_eq, Prod.mk.injEq]
  constructor
  · rintro ⟨⟨⟨h1, h2⟩, h3⟩, h4⟩
    constructor <;> omega
  · rintro ⟨h1, h2⟩
    refine ⟨⟨⟨?_, ?_⟩, ?_⟩, ?_⟩ <;> omega

theorem tileMap_eq_singleton {α : Type} (m : TileMap α) (c : Int × Int)
    (td : TileData α) (hnd : (m.map Prod.fst).Nodup)
    (honly : ∀ k, (lookupTile k m).isSome = true → k = c)
    (hc : lookupTile c m = some td) : m = [(c, td)] := by
  cases m with
  | nil => simp [lookupTile] at hc
  | cons p rest =>
    obtain ⟨k1, td1⟩ := p
    have hk1 : k1 = c := honly k1 (by rw [lookupTile, if_pos rfl]; rfl)
    subst hk1
    rw [lookupTile, if_pos rfl, Option.some_inj] at hc
    subst hc
    cases rest with
    | nil => rfl
    | cons q rest2 =>
      obtain ⟨k2, td2⟩ := q
      exfalso
      have hk1notin : k1 ∉ ((k2, td2) :: rest2).map Prod.fst :=
        (List.nodup_cons.mp (by simpa using hnd)).1
      have hk2 : k2 ≠ k1 := by
        intro he
        exact hk1notin (by simp [he])
      have hsome : (lookupTile k2 ((k1, td1) :: (k2, td2) :: rest2)).isSome = true := by
        rw [lookupTile, if_neg (Ne.symm hk2), lookupTile, if_pos rfl]
        rfl
      exact hk2 (honly k2 hsome)

/-- C7 (amended): a mesh with at least one complete triangle whose vertices
all lie in the single grid cell with coordinate `c` splits into exactly one
tile, at coordinate `c` (which is `(0,0)` exactly when that cell is the
origin cell), containing every complete source triangle exactly once, in
order, locally re-indexed. -/
theorem split_single_cell {α : Type} [LinearOrderedField α] [FloorRing α]
    (vertices normals : List (Vec3 α)) (indices : List Nat) (tile_size : α)
    (c : Int × Int) (hts : 0 < tile_size)
    (hcell : ∀ v ∈ vertices, tileCoord tile_size v = c)
    (hvalid : ∀ i ∈ indices, i < vertices.length)
    (hne : (chunks3 indices).any (fun ch => ch.length == 3) = true) :
    split_mesh_into_tiles vertices indices normals tile_size =
      [(c, ⟨((chunks3 indices).filter (fun ch => ch.length == 3)).flatMap (triVerts vertices),
        List.range (((chunks3 indices).filter (fun ch => ch.length == 3)).flatMap
          (triVerts vertices)).length,
        ((chunks3 indices).filter (fun ch => ch.length == 3)).flatMap (triVerts normals)⟩)] := by
  have hcongr : ∀ k, k = c →
      List.filter (coversB vertices tile_size k) (chunks3 indices) =
        List.filter (fun ch => ch.length == 3) (chunks3 indices) := by
    intro k hk
    rw [hk]
    refine List.filter_congr ?_
    intro ch hch
    by_cases h3 : ch.length = 3
    · rw [(coversB_single_cell vertices tile_size c indices hcell hvalid ch hch h3 c).mpr rfl]
      simp [h3]
    · have : coversB vertices tile_size c ch = false := by
        rw [coversB]
        simp [h3]
      rw [this]
      simp [h3]
  have hnotc : ∀ k, k ≠ c →
      (chunks3 indices).any (coversB vertices tile_size k) = false := by
    intro k hk
    rw [List.any_eq_false]
    intro ch hch
    by_cases h3 : ch.length = 3
    · rw [Bool.not_eq_true]
      cases hcb : coversB vertices tile_size k ch with
      | false => rfl
      | true =>
        exact absurd ((coversB_single_cell vertices tile_size c indices hcell hvalid
          ch hch h3 k).mp hcb) hk
    · rw [coversB]
      simp [h3]
  have hanyc : (chunks3 indices).any (coversB vertices tile_size c) = true := by
    rw [List.any_eq_true] at hne ⊢
    obtain ⟨ch, hch, h3⟩ := hne
    refine ⟨ch, hch, ?_⟩
    rw [(coversB_single_cell vertices tile_size c indices hcell hvalid ch hch
      (by simpa using h3) c).mpr rfl]
  refine tileMap_eq_singleton _ c _ (split_keys_nodup vertices normals indices tile_size)
    ?_ ?_
  · intro k hsome
    by_contra hk
    rw [split_lookup_eq, if_neg (by rw [hnotc k hk]; simp)] at hsome
    simp at hsome
  · rw [split_lookup_eq, if_pos hanyc, specTileVerts, specTileNorms, hcongr c rfl]

theorem triRect_one_example :
    triRect [(⟨1, 0, 1⟩ : Vec3 ℚ)] 1 [0, 0, 0] = (1, 1, 1, 1) := by
  have hc : cornerOf [(⟨1, 0, 1⟩ : Vec3 ℚ)] [0, 0, 0] 0 = ⟨1, 0, 1⟩ := rfl
  have hc1 : cornerOf [(⟨1, 0, 1⟩ : Vec3 ℚ)] [0, 0, 0] 1 = ⟨1, 0, 1⟩ := rfl
  have hc2 : cornerOf [(⟨1, 0, 1⟩ : Vec3 ℚ)] [0, 0, 0] 2 = ⟨1, 0, 1⟩ := rfl
  simp [triRect, hc, hc1, hc2, tileCoord]

theorem split_example2_eq :
    split_mesh_into_tiles [(⟨1, 0, 1⟩ : Vec3 ℚ)] [0, 0, 0] [⟨0, 1, 0⟩] 1 =
      [((1, 1), ⟨[⟨1, 0, 1⟩, ⟨1, 0, 1⟩, ⟨1, 0, 1⟩], [0, 1, 2],
        [⟨0, 1, 0⟩, ⟨0, 1, 0⟩, ⟨0, 1, 0⟩]⟩)] := by
  rw [split_mesh_into_tiles, show chunks3 [0, 0, 0] = [[0, 0, 0]] from rfl,
    List.foldl_cons, List.foldl_nil, addTriangle, if_pos (by rfl), triRect_one_example]
  rfl

/-- Counterexample to C7 as stated: a mesh fully contained in the single grid
cell `[1, 2) × [1, 2)` (with `tile_size = 1`) yields exactly one tile, but at
coordinate `(1, 1)` — there is no tile at `(0, 0)`. -/
theorem split_single_cell_cex :
    lookupTile (0, 0) (split_mesh_into_tiles [(⟨1, 0, 1⟩ : Vec3 ℚ)] [0, 0, 0]
      [⟨0, 1, 0⟩] 1) = none ∧
    (split_mesh_into_tiles [(⟨1, 0, 1⟩ : Vec3 ℚ)] [0, 0, 0] [⟨0, 1, 0⟩] 1).map
      Prod.fst = [(1, 1)] := by
  rw [split_example2_eq]
  exact ⟨rfl, rfl⟩

/-- Witness for `split_single_cell`: the one-triangle mesh in cell `(1, 1)`. -/
theorem split_single_cell_witness :
    ((0 : ℚ) < 1) ∧
    (∀ v ∈ [(⟨1, 0, 1⟩ : Vec3 ℚ)], tileCoord (1 : ℚ) v = (1, 1)) ∧
    (∀ i ∈ ([0, 0, 0] : List Nat), i < ([(⟨1, 0, 1⟩ : Vec3 ℚ)]).length) ∧
    ((chunks3 ([0, 0, 0] : List Nat)).any (fun ch => ch.length == 3) = true) ∧
    split_mesh_into_tiles [(⟨1, 0, 1⟩ : Vec3 ℚ)] [0, 0, 0] [⟨0, 1, 0⟩] 1 =
      [((1, 1), ⟨((chunks3 ([0, 0, 0] : List Nat)).filter
          (fun ch => ch.length == 3)).flatMap (triVerts [(⟨1, 0, 1⟩ : Vec3 ℚ)]),
        List.range (((chunks3 ([0, 0, 0] : List Nat)).filter
          (fun ch => ch.length == 3)).flatMap (triVerts [(⟨1, 0, 1⟩ : Vec3 ℚ)])).length,
        ((chunks3 ([0, 0, 0] : List Nat)).filter
          (fun ch => ch.length == 3)).flatMap (triVerts [(⟨0, 1, 0⟩ : Vec3 ℚ)])⟩)] := by
  have hcell : ∀ v ∈ [(⟨1, 0, 1⟩ : Vec3 ℚ)], tileCoord (1 : ℚ) v = (1, 1) := by
    intro v hv
    rw [List.mem_singleton] at hv
    subst hv
    simp [tileCoord]
  exact ⟨by decide, hcell, by decide, by decide,
    split_single_cell [(⟨1, 0, 1⟩ : Vec3 ℚ)] [⟨0, 1, 0⟩] [0, 0, 0] 1 (1, 1)
      (by decide) hcell (by decide) (by decide)⟩

theorem Vec3.add_zero {α : Type} [LinearOrderedField α] (v : Vec3 α) :
    v.add Vec3.zero = v := by
  cases v
  simp [Vec3.add, Vec3.zero]

theorem Vec3.zero_add {α : Type} [LinearOrderedField α] (v : Vec3 α) :
    Vec3.zero.add v = v := by
  cases v
  simp [Vec3.add, Vec3.zero]

theorem Vec3.add_assoc {α : Type} [LinearOrderedField α] (a b c : Vec3 α) :
    (a.add b).add c = a.add (b.add c) := by
  cases a
  cases b
  cases c
  simp only [Vec3.add, Vec3.mk.injEq]
  refine ⟨by ring, by ring, by ring⟩

theorem Vec3.add_shuffle {α : Type} [LinearOrderedField α] (x f s : Vec3 α) :
    (x.add f).add s = x.add (s.add f) := by
  cases x
  cases f
  cases s
  simp only [Vec3.add, Vec3.mk.injEq]
  refine ⟨by ring, by ring, by ring⟩

theorem foldl_vadd_shift {α : Type} [LinearOrderedField α]
    (g : List Nat → Vec3 α) (L : List (List Nat)) :
    ∀ s : Vec3 α, L.foldl (fun a ch => a.add (g ch)) s =
      s.add (L.foldl (fun a ch => a.add (g ch)) Vec3.zero) := by
  induction L with
  | nil => intro s; rw [List.foldl_nil, List.foldl_nil, Vec3.add_zero]
  | cons c L ih =>
    intro s
    rw [List.foldl_cons, List.foldl_cons, ih (s.add (g c)),
      ih (Vec3.zero.add (g c)), Vec3.zero_add, Vec3.add_assoc]

theorem foldl_nadd_shift (h : List Nat → Nat) (L : List (List Nat)) :
    ∀ s : Nat, L.foldl (fun a ch => a + h ch) s =
      s + L.foldl (fun a ch => a + h ch) 0 := by
  induction L with
  | nil => intro s; simp
  | cons c L ih =>
    intro s
    rw [List.foldl_cons, List.foldl_cons, ih (s + h c), ih (0 + h c)]
    omega

theorem bump_fst_length {α : Type} [LinearOrderedField α] (fn : Vec3 α)
    (st : List (Vec3 α) × List Nat) (a : Nat) :
    (bumpNormal fn st a).1.length = st.1.length := by
  rw [bumpNormal, List.length_set]

theorem bump_snd_length {α : Type} [LinearOrderedField α] (fn : Vec3 α)
    (st : List (Vec3 α) × List Nat) (a : Nat) :
    (bumpNormal fn st a).2.length = st.2.length := by
  rw [bumpNormal, List.length_set]

theorem bump_fst_getD {α : Type} [LinearOrderedField α] (fn : Vec3 α)
    (st : List (Vec3 α) × List Nat) (a j : Nat) (hj : j < st.1.length) :
    (bumpNormal fn st a).1.getD j Vec3.zero =
      if a = j then (st.1.getD j Vec3.zero).add fn
      else st.1.getD j Vec3.zero := by
  rw [bumpNormal]
  by_cases ha : a = j
  · subst ha
    simp [List.getD_eq_getElem?_getD, List.getElem?_set_self hj]
  · simp [List.getD_eq_getElem?_getD, List.getElem?_set_ne ha, ha]

theorem bump_snd_getD {α : Type} [LinearOrderedField α] (fn : Vec3 α)
    (st : List (Vec3 α) × List Nat) (a j : Nat) (hj : j < st.2.length) :
    (bumpNormal fn st a).2.getD j 0 =
      if a = j then st.2.getD j 0 + 1 else st.2.getD j 0 := by
  rw [bumpNormal]
  by_cases ha : a = j
  · subst ha
    simp [List.getD_eq_getElem?_getD, List.getElem?_set_self hj]
  · simp [List.getD_eq_getElem?_getD, List.getElem?_set_ne ha, ha]

theorem chunk_fold_effect {α : Type} [LinearOrderedField α] (fn : Vec3 α)
    (ch : List Nat) :
    ∀ (st : List (Vec3 α) × List Nat) (j : Nat), j < st.1.length → j < st.2.length →
      (ch.foldl (bumpNormal fn) st).1.length = st.1.length ∧
      (ch.foldl (bumpNormal fn) st).2.length = st.2.length ∧
      (ch.foldl (bumpNormal fn) st).1.getD j Vec3.zero =
        (st.1.getD j Vec3.zero).add (Vec3.nsmul (ch.count j) fn) ∧
      (ch.foldl (bumpNormal fn) st).2.getD j 0 = st.2.getD j 0 + ch.count j := by
  induction ch with
  | nil =>
    intro st j hj1 hj2
    refine ⟨rfl, rfl, ?_, ?_⟩
    · rw [List.foldl_nil, List.count_nil, Vec3.nsmul, Vec3.add_zero]
    · rw [List.foldl_nil, List.count_nil]
      omega
  | cons a tl ih =>
    intro st j hj1 hj2
    have hj1b : j < (bumpNormal fn st a).1.length := by rw [bump_fst_length]; exact hj1
    have hj2b : j < (bumpNormal fn st a).2.length := by rw [bump_snd_length]; exact hj2
    obtain ⟨hl1, hl2, hv, hc⟩ := ih (bumpNormal fn st a) j hj1b hj2b
    rw [List.foldl_cons]
    refine ⟨by rw [hl1, bump_fst_length], by rw [hl2, bump_snd_length], ?_, ?_⟩
    · rw [hv, bump_fst_getD fn st a j hj1, List.count_cons]
      by_cases ha : a = j
      · subst ha
        simp only [if_pos rfl, beq_self_eq_true, if_true]
        rw [show Vec3.nsmul (List.count a tl + 1) fn =
          (Vec3.nsmul (List.count a tl) fn).add fn from rfl, Vec3.add_shuffle]
      · have hba : (a == j) = false := by simp [ha]
        rw [if_neg ha, hba]
        simp
    · rw [hc, bump_snd_getD fn st a j hj2, List.count_cons]
      by_cases ha : a = j
      · subst ha
        simp only [if_pos rfl, beq_self_eq_true, if_true]
        omega
      · have hba : (a == j) = false := by simp [ha]
        rw [if_neg ha, hba]
        simp

theorem accumStep_of_len3 {α : Type} [LinearOrderedField α] (nrm : Vec3 α → Vec3 α)
    (vertices : List (Vec3 α)) (st : List (Vec3 α) × List Nat) (ch : List Nat)
    (h3 : ch.length = 3) :
    accumStep nrm vertices st ch =
      ch.foldl (bumpNormal (faceNormal nrm vertices ch)) st := by
  rw [accumStep, if_pos h3]
  rfl

theorem accumStep_of_not3 {α : Type} [LinearOrderedField α] (nrm : Vec3 α → Vec3 α)
    (vertices : List (Vec3 α)) (st : List (Vec3 α) × List Nat) (ch : List Nat)
    (h3 : ¬ch.length = 3) : accumStep nrm vertices st ch = st := by
  rw [accumStep, if_neg h3]

theorem bump_fold_lengths {α : Type} [LinearOrderedField α] (fn : Vec3 α)
    (ch : List Nat) :
    ∀ st : List (Vec3 α) × List Nat,
      (ch.foldl (bumpNormal fn) st).1.length = st.1.length ∧
      (ch.foldl (bumpNormal fn) st).2.length = st.2.length := by
  induction ch with
  | nil => intro st; exact ⟨rfl, rfl⟩
  | cons a tl ih =>
    intro st
    rw [List.foldl_cons]
    obtain ⟨h1, h2⟩ := ih (bumpNormal fn st a)
    rw [h1, h2, bump_fst_length, bump_snd_length]
    exact ⟨rfl, rfl⟩

theorem accum_fold_lengths {α : Type} [LinearOrderedField α] (nrm : Vec3 α → Vec3 α)
    (vertices : List (Vec3 α)) (chs : List (List Nat)) :
    ∀ st : List (Vec3 α) × List Nat,
      (chs.foldl (accumStep nrm vertices) st).1.length = st.1.length ∧
      (chs.foldl (accumStep nrm vertices) st).2.length = st.2.length := by
  induction chs with
  | nil => intro st; exact ⟨rfl, rfl⟩
  | cons ch rest ih =>
    intro st
    rw [List.foldl_cons]
    obtain ⟨h1, h2⟩ := ih (accumStep nrm vertices st ch)
    by_cases h3 : ch.length = 3
    · rw [h1, h2, accumStep_of_len3 _ _ _ _ h3]
      obtain ⟨g1, g2⟩ := bump_fold_lengths (faceNormal nrm vertices ch) ch st
      exact ⟨g1, g2⟩
    · rw [h1, h2, accumStep_of_not3 _ _ _ _ h3]
      exact ⟨rfl, rfl⟩

theorem accum_fold_effect {α : Type} [LinearOrderedField α] (nrm : Vec3 α → Vec3 α)
    (vertices : List (Vec3 α)) (chs : List (List Nat)) :
    ∀ (st : List (Vec3 α) × List Nat) (j : Nat), j < st.1.length → j < st.2.length →
      (chs.foldl (accumStep nrm vertices) st).1.getD j Vec3.zero =
        (st.1.getD j Vec3.zero).add
          ((chs.filter (fun ch => ch.length == 3)).foldl
            (fun a ch => a.add (Vec3.nsmul (ch.count j) (faceNormal nrm vertices ch)))
            Vec3.zero) ∧
      (chs.foldl (accumStep nrm vertices) st).2.getD j 0 =
        st.2.getD j 0 +
          (chs.filter (fun ch => ch.length == 3)).foldl
            (fun a ch => a + ch.count j) 0 := by
  induction chs with
  | nil =>
    intro st j hj1 hj2
    constructor
    · rw [List.foldl_nil, List.filter_nil, List.foldl_nil, Vec3.add_zero]
    · rw [List.foldl_nil, List.filter_nil, List.foldl_nil]
      omega
  | cons ch rest ih =>
    intro st j hj1 hj2
    rw [List.foldl_cons]
    by_cases h3 : ch.length = 3
    · have hfil : List.filter (fun ch => ch.length == 3) (ch :: rest) =
          ch :: List.filter (fun ch => ch.length == 3) rest :=
        List.filter_cons_of_pos (by simp [h3])
      rw [hfil, accumStep_of_len3 _ _ _ _ h3]
      obtain ⟨hl1, hl2, hv, hc⟩ :=
        chunk_fold_effect (faceNormal nrm vertices ch) ch st j hj1 hj2
      obtain ⟨iv, ic⟩ := ih (ch.foldl (bumpNormal (faceNormal nrm vertices ch)) st) j
        (by rw [hl1]; exact hj1) (by rw [hl2]; exact hj2)
      constructor
      · rw [iv, hv, Vec3.add_assoc, List.foldl_cons,
          foldl_vadd_shift (fun c2 => Vec3.nsmul (c2.count j) (faceNormal nrm vertices c2))
            (List.filter (fun c2 => c2.length == 3) rest)
            (Vec3.zero.add (Vec3.nsmul (ch.count j) (faceNormal nrm vertices ch))),
          Vec3.zero_add]
      · rw [ic, hc, List.foldl_cons,
          foldl_nadd_shift (fun c2 => c2.count j)
            (List.filter (fun c2 => c2.length == 3) rest) (0 + ch.count j)]
        omega
    · have hfil : List.filter (fun ch => ch.length == 3) (ch :: rest) =
          List.filter (fun ch => ch.length == 3) rest :=
        List.filter_cons_of_neg (by simp [h3])
      rw [hfil, accumStep_of_not3 _ _ _ _ h3]
      exact ih st j hj1 hj2

theorem finalizeNormals_length {α : Type} [LinearOrderedField α]
    (nrm : Vec3 α → Vec3 α) :
    ∀ (ns : List (Vec3 α)) (cs : List Nat),
      (finalizeNormals nrm ns cs).length = ns.length := by
  intro ns
  induction ns with
  | nil => intro cs; cases cs <;> rfl
  | cons n ns ih =>
    intro cs
    cases cs with
    | nil => rfl
    | cons c cs =>
      show ((if 0 < c then nrm (n.sdiv (c : α)) else n) :: finalizeNormals nrm ns cs).length = _
      rw [List.length_cons, ih cs, List.length_cons]

theorem finalizeNormals_getD {α : Type} [LinearOrderedField α]
    (nrm : Vec3 α → Vec3 α) :
    ∀ (ns : List (Vec3 α)) (cs : List Nat) (j : Nat), j < ns.length →
      ns.length = cs.length →
      (finalizeNormals nrm ns cs).getD j Vec3.zero =
        if 0 < cs.getD j 0 then nrm ((ns.getD j Vec3.zero).sdiv ((cs.getD j 0 : Nat) : α))
        else ns.getD j Vec3.zero := by
  intro ns
  induction ns with
  | nil =>
    intro cs j hj _
    simp at hj
  | cons n ns ih =>
    intro cs j hj hlen
    cases cs with
    | nil => simp at hlen
    | cons c cs =>
      have hrec : finalizeNormals nrm (n :: ns) (c :: cs) =
          (if 0 < c then nrm (n.sdiv (c : α)) else n) :: finalizeNormals nrm ns cs := rfl
      rw [hrec]
      cases j with
      | zero => rw [List.getD_cons_zero, List.getD_cons_zero, List.getD_cons_zero]
      | succ j =>
        rw [List.getD_cons_succ, List.getD_cons_succ, List.getD_cons_succ]
        exact ih cs j (by simpa using hj) (by simpa using hlen)

theorem sum_zero_of_count_zero {α : Type} [LinearOrderedField α]
    (nrm : Vec3 α → Vec3 α) (vertices : List (Vec3 α)) (j : Nat) :
    ∀ L : List (List Nat), L.foldl (fun a ch => a + ch.count j) 0 = 0 →
      L.foldl (fun a ch => a.add (Vec3.nsmul (ch.count j) (faceNormal nrm vertices ch)))
        Vec3.zero = Vec3.zero := by
  intro L
  induction L with
  | nil => intro _; rfl
  | cons c L ih =>
    intro h
    rw [List.foldl_cons, foldl_nadd_shift (fun ch => ch.count j)] at h
    have hc : List.count j c = 0 := by omega
    have hrest : L.foldl (fun a ch => a + ch.count j) 0 = 0 := by omega
    rw [List.foldl_cons, hc]
    rw [show Vec3.nsmul 0 (faceNormal nrm vertices c) = Vec3.zero from rfl,
      Vec3.add_zero]
    exact ih hrest

/-- C5: normal averaging — each complete triangle's normalized face normal
(cross product of the two edge vectors from its first corner, passed through
the normalization `nrm`) is summed (not running-averaged) into each of its 3
corner slots with a per-slot contribution counter, one contribution per
occurrence; afterwards every vertex with a positive count holds
`nrm(accumulated sum / count)`, and a vertex referenced by no complete
triangle retains the zero vector. -/
theorem average_normals_spec {α : Type} [LinearOrderedField α]
    (nrm : Vec3 α → Vec3 α) (vertices : List (Vec3 α)) (indices : List Nat) :
    (average_normals nrm vertices indices).length = vertices.length ∧
    ∀ j, j < vertices.length →
      (average_normals nrm vertices indices).getD j Vec3.zero =
        if 0 < specCount indices j
        then nrm ((specSum nrm vertices indices j).sdiv ((specCount indices j : Nat) : α))
        else Vec3.zero := by
  constructor
  · simp only [average_normals]
    rw [finalizeNormals_length,
      (accum_fold_lengths nrm vertices (chunks3 indices) _).1, List.length_replicate]
  · intro j hj
    simp only [average_normals]
    have h1 := (accum_fold_lengths nrm vertices (chunks3 indices)
      (List.replicate vertices.length Vec3.zero, List.replicate vertices.length 0)).1
    have h2 := (accum_fold_lengths nrm vertices (chunks3 indices)
      (List.replicate vertices.length Vec3.zero, List.replicate vertices.length 0)).2
    have hj1 : j < ((chunks3 indices).foldl (accumStep nrm vertices)
        (List.replicate vertices.length Vec3.zero,
         List.replicate vertices.length 0)).1.length := by
      rw [h1, List.length_replicate]
      exact hj
    rw [finalizeNormals_getD nrm _ _ j hj1 (by rw [h1, h2]; simp)]
    obtain ⟨hv, hc⟩ := accum_fold_effect nrm vertices (chunks3 indices)
      (List.replicate vertices.length Vec3.zero, List.replicate vertices.length 0) j
      (by simp; exact hj) (by simp; exact hj)
    have hrepv : (List.replicate vertices.length (Vec3.zero : Vec3 α)).getD j Vec3.zero =
        Vec3.zero := by
      simp [List.getD_eq_getElem?_getD, List.getElem?_replicate_of_lt hj]
    have hrepc : (List.replicate vertices.length (0 : Nat)).getD j 0 = 0 := by
      simp [List.getD_eq_getElem?_getD, List.getElem?_replicate_of_lt hj]
    rw [hv, hc, hrepv, hrepc, Vec3.zero_add, Nat.zero_add]
    have hSS : specSum nrm vertices indices j =
        ((chunks3 indices).filter (fun ch => ch.length == 3)).foldl
          (fun a ch => a.add (Vec3.nsmul (ch.count j) (faceNormal nrm vertices ch)))
          Vec3.zero := rfl
    have hSC : specCount indices j =
        ((chunks3 indices).filter (fun ch => ch.length == 3)).foldl
          (fun a ch => a + ch.count j) 0 := rfl
    rw [← hSS, ← hSC]
    by_cases hpos : 0 < specCount indices j
    · rw [if_pos hpos, if_pos hpos]
    · rw [if_neg hpos, if_neg hpos, hSS]
      refine sum_zero_of_count_zero nrm vertices j _ ?_
      rw [← hSC]
      omega

/-- Witness for `average_normals_spec`: one degenerate triangle over a single
vertex, with the identity standing in for normalization. -/
theorem average_normals_spec_witness :
    (0 < ([(⟨0, 0, 0⟩ : Vec3 ℚ)] : List (Vec3 ℚ)).length) ∧
    (average_normals id [(⟨0, 0, 0⟩ : Vec3 ℚ)] [0, 0, 0]).getD 0 Vec3.zero =
      (if 0 < specCount [0, 0, 0] 0
       then id ((specSum id [(⟨0, 0, 0⟩ : Vec3 ℚ)] [0, 0, 0] 0).sdiv
         ((specCount [0, 0, 0] 0 : Nat) : ℚ))
       else Vec3.zero) :=
  ⟨by decide, (average_normals_spec id [(⟨0, 0, 0⟩ : Vec3 ℚ)] [0, 0, 0]).2 0 (by decide)⟩

/-- Counterexample to C1 as stated: with a previously spawned tile entity and
a pending update whose load fails, the state after `update_mesh` differs from
the state before it — the tile entities were already despawned before the
load was attempted. -/
theorem update_mesh_failed_cex :
    update_mesh (fun _ => (Except.error () : Except Unit (ObjData ℚ))) id id
      ⟨[⟨0, 0, [], [], [], []⟩], ⟨[], [], [], 988⟩, 45, some "mesh.obj", true⟩ ≠
    ⟨[⟨0, 0, [], [], [], []⟩], ⟨[], [], [], 988⟩, 45, some "mesh.obj", true⟩ := by
  intro h
  have h2 := congrArg AppState.tiles h
  have h3 : update_mesh (fun _ => (Except.error () : Except Unit (ObjData ℚ))) id id
      ⟨[⟨0, 0, [], [], [], []⟩], ⟨[], [], [], 988⟩, 45, some "mesh.obj", true⟩ =
      ⟨[], ⟨[], [], [], 988⟩, 45, some "mesh.obj", false⟩ := rfl
  rw [h3] at h2
  simp at h2

/-- C1 (amended): when an update is pending and the load of the selected path
fails, `update_mesh` leaves the `MeshData` resource untouched and installs no
new mesh, but the previously spawned tile entities have already been
despawned and the update flag is cleared — so the tile collection is emptied
rather than preserved. -/
theorem update_mesh_failed_load {α : Type} [LinearOrderedField α] [FloorRing α]
    (load_obj : String → Except Unit (ObjData α)) (nrm : Vec3 α → Vec3 α)
    (cosr : α → α) (st : AppState α) (path : String) (e : Unit)
    (hup : st.needs_update = true) (hpath : st.obj_path = some path)
    (herr : load_obj path = Except.error e) :
    update_mesh load_obj nrm cosr st =
      { st with tiles := [], needs_update := false } ∧
    (update_mesh load_obj nrm cosr st).meshData = st.meshData := by
  have hmain : update_mesh load_obj nrm cosr st =
      { st with tiles := [], needs_update := false } := by
    rw [update_mesh, if_neg (by rw [hup]; simp), hpath]
    simp only [herr]
  exact ⟨hmain, by rw [hmain]⟩

/-- Witness for `update_mesh_failed_load`: a concrete failing load on a state
with one spawned tile. -/
theorem update_mesh_failed_load_witness :
    ((⟨[⟨0, 0, [], [], [], []⟩], ⟨[], [], [], 988⟩, 45, some "mesh.obj", true⟩ :
        AppState ℚ).needs_update = true) ∧
    ((⟨[⟨0, 0, [], [], [], []⟩], ⟨[], [], [], 988⟩, 45, some "mesh.obj", true⟩ :
        AppState ℚ).obj_path = some "mesh.obj") ∧
    ((fun _ => (Except.error () : Except Unit (ObjData ℚ))) "mesh.obj" =
      Except.error ()) ∧
    (update_mesh (fun _ => (Except.error () : Except Unit (ObjData ℚ))) id id
        ⟨[⟨0, 0, [], [], [], []⟩], ⟨[], [], [], 988⟩, 45, some "mesh.obj", true⟩ =
      { (⟨[⟨0, 0, [], [], [], []⟩], ⟨[], [], [], 988⟩, 45, some "mesh.obj", true⟩ :
          AppState ℚ) with tiles := [], needs_update := false } ∧
    (update_mesh (fun _ => (Except.error () : Except Unit (ObjData ℚ))) id id
        ⟨[⟨0, 0, [], [], [], []⟩], ⟨[], [], [], 988⟩, 45, some "mesh.obj", true⟩).meshData =
      (⟨[⟨0, 0, [], [], [], []⟩], ⟨[], [], [], 988⟩, 45, some "mesh.obj", true⟩ :
        AppState ℚ).meshData) :=
  ⟨rfl, rfl, rfl,
   update_mesh_failed_load (fun _ => (Except.error () : Except Unit (ObjData ℚ))) id id
     ⟨[⟨0, 0, [], [], [], []⟩], ⟨[], [], [], 988⟩, 45, some "mesh.obj", true⟩
     "mesh.obj" () rfl rfl rfl⟩
